import Mathlib

/-!
# BookBot recommendation pipeline — formal model

Shallow embedding of the core recommendation pipeline of the `bookbot`
repository (`bookbot/recommender.py`, `bookbot/cli.py`, `bookbot/scheduler.py`)
and proofs of the specification claims about it.

Text is modelled as `List Char`.  Python `dict`s produced by `json.loads`
are modelled as association lists in parse order (duplicate keys resolved
by last occurrence, as `json.loads` does).  Python exceptions that escape
a modelled function are modelled with `Except Unit`.

Recursive text scanners are defined with an explicit fuel argument (so that
they are structurally recursive and kernel-reducible); the fuel-free wrapper
is the model, and clean unfolding equations are proved below each wrapper.
-/

namespace BookBot

/-- The backtick character (code point 96). -/
def btChar : Char := Char.ofNat 96

/-- Python `str.strip()` / regex `\s` whitespace, restricted to the ASCII
whitespace characters (space, tab, newline, carriage return, vertical tab,
form feed); the pipeline only ever manipulates ASCII whitespace. -/
def isPyWs (c : Char) : Bool :=
  c = ' ' ∨ c = '\t' ∨ c = '\n' ∨ c = '\r' ∨ c = Char.ofNat 11 ∨ c = Char.ofNat 12

/-- JSON (`json.loads`) whitespace: space, tab, newline, carriage return. -/
def isJsonWs (c : Char) : Bool :=
  c = ' ' ∨ c = '\t' ∨ c = '\n' ∨ c = '\r'

/-- Values produced by Python's `json.loads`, plus everything the
validation layer needs to distinguish.  Floats are idealised as exact
decimals `m * 10 ^ e` (no claim exercises float rounding). -/
inductive PyVal : Type where
  | vStr : List Char → PyVal
  | vInt : Int → PyVal
  | vFloat : Int → Int → PyVal
  | vBool : Bool → PyVal
  | vNone : PyVal
  | vList : List PyVal → PyVal
  | vDict : List (List Char × PyVal) → PyVal

/-- A parsed JSON object (Python `dict`): association list in parse order. -/
abbrev PyDict := List (List Char × PyVal)

/-- Validated user preferences (`collect_preferences` in `bookbot/cli.py`).
The validation layer receives but never inspects them. -/
structure Prefs where
  genres : List (List Char)
  favoriteBooks : List (List Char)
  familiarityLevel : Nat

/-! ## Step 1 of `parse_llm_output`: fence stripping

`cleaned = re.sub(r"```(?:json)?\s*", "", raw)` followed by
`cleaned = re.sub(r"```", "", cleaned).strip()`.

The `re.sub` scans are modelled as left-to-right scanners that, at each
position, either remove a match (continuing after it) or emit the current
character. -/

/-- Drop the literal word `json` if it is the immediate prefix
(the `(?:json)?` part of the fence regex). -/
def dropJsonWord (s : List Char) : List Char :=
  match s with
  | 'j' :: 's' :: 'o' :: 'n' :: rest => rest
  | _ => s

theorem dropJsonWord_length_le (s : List Char) : (dropJsonWord s).length ≤ s.length := by
  unfold dropJsonWord
  split
  · simp only [List.length_cons]; omega
  · exact Nat.le_refl _

/-- Fuel-indexed scanner for `re.sub(r"```(?:json)?\s*", "", ·)`. -/
def fenceSub1Go : Nat → List Char → List Char
  | 0, s => s
  | _ + 1, [] => []
  | _ + 1, [c] => [c]
  | _ + 1, [c1, c2] => [c1, c2]
  | fuel + 1, c1 :: c2 :: c3 :: rest =>
    if c1 = btChar ∧ c2 = btChar ∧ c3 = btChar then
      fenceSub1Go fuel ((dropJsonWord rest).dropWhile isPyWs)
    else
      c1 :: fenceSub1Go fuel (c2 :: c3 :: rest)

/-- `re.sub(r"```(?:json)?\s*", "", ·)`. -/
def fenceSub1 (s : List Char) : List Char := fenceSub1Go s.length s

theorem fenceSub1Go_fuelIrrel (f1 : Nat) (f2 : Nat) (s : List Char)
    (h1 : s.length ≤ f1) (h2 : s.length ≤ f2) :
    fenceSub1Go f1 s = fenceSub1Go f2 s := by
  induction f1 generalizing f2 s with
  | zero =>
    match s, h1 with
    | [], _ => cases f2 <;> rfl
  | succ n ih =>
    match s with
    | [] => cases f2 <;> rfl
    | [c] =>
      match f2, h2 with
      | m + 1, _ => rfl
    | [c1, c2] =>
      match f2, h2 with
      | m + 1, _ => rfl
    | c1 :: c2 :: c3 :: rest =>
      match f2, h2 with
      | m + 1, h2 =>
        simp only [List.length_cons] at h1 h2
        show fenceSub1Go (n + 1) _ = fenceSub1Go (m + 1) _
        unfold fenceSub1Go
        have hlen : ((dropJsonWord rest).dropWhile isPyWs).length ≤ rest.length :=
          Nat.le_trans (List.Sublist.length_le (List.dropWhile_sublist _))
            (dropJsonWord_length_le rest)
        by_cases hb : c1 = btChar ∧ c2 = btChar ∧ c3 = btChar
        · simp only [if_pos hb]
          exact ih _ _ (by omega) (by omega)
        · simp only [if_neg hb]
          rw [ih m (c2 :: c3 :: rest) (by simp only [List.length_cons]; omega)
            (by simp only [List.length_cons]; omega)]

theorem fenceSub1Go_stable (fuel : Nat) (s : List Char) (h : s.length ≤ fuel) :
    fenceSub1Go fuel s = fenceSub1 s :=
  fenceSub1Go_fuelIrrel fuel s.length s h (Nat.le_refl _)

theorem fenceSub1_nil : fenceSub1 [] = [] := rfl

theorem fenceSub1_one (c : Char) : fenceSub1 [c] = [c] := rfl

theorem fenceSub1_two (c1 c2 : Char) : fenceSub1 [c1, c2] = [c1, c2] := rfl

theorem fenceSub1_cons (c1 c2 c3 : Char) (rest : List Char) :
    fenceSub1 (c1 :: c2 :: c3 :: rest) =
      if c1 = btChar ∧ c2 = btChar ∧ c3 = btChar then
        fenceSub1 ((dropJsonWord rest).dropWhile isPyWs)
      else
        c1 :: fenceSub1 (c2 :: c3 :: rest) := by
  show fenceSub1Go (rest.length + 3) (c1 :: c2 :: c3 :: rest) = _
  unfold fenceSub1Go
  by_cases hb : c1 = btChar ∧ c2 = btChar ∧ c3 = btChar
  · simp only [if_pos hb]
    exact fenceSub1Go_stable _ _
      (Nat.le_trans (List.Sublist.length_le (List.dropWhile_sublist _))
        (Nat.le_trans (dropJsonWord_length_le rest) (by omega)))
  · simp only [if_neg hb]
    rw [fenceSub1Go_stable _ _ (by simp only [List.length_cons]; omega)]

/-- Fuel-indexed scanner for `re.sub(r"```", "", ·)`. -/
def fenceSub2Go : Nat → List Char → List Char
  | 0, s => s
  | _ + 1, [] => []
  | _ + 1, [c] => [c]
  | _ + 1, [c1, c2] => [c1, c2]
  | fuel + 1, c1 :: c2 :: c3 :: rest =>
    if c1 = btChar ∧ c2 = btChar ∧ c3 = btChar then
      fenceSub2Go fuel rest
    else
      c1 :: fenceSub2Go fuel (c2 :: c3 :: rest)

/-- `re.sub(r"```", "", ·)`. -/
def fenceSub2 (s : List Char) : List Char := fenceSub2Go s.length s

theorem fenceSub2Go_fuelIrrel (f1 : Nat) (f2 : Nat) (s : List Char)
    (h1 : s.length ≤ f1) (h2 : s.length ≤ f2) :
    fenceSub2Go f1 s = fenceSub2Go f2 s := by
  induction f1 generalizing f2 s with
  | zero =>
    match s, h1 with
    | [], _ => cases f2 <;> rfl
  | succ n ih =>
    match s with
    | [] => cases f2 <;> rfl
    | [c] =>
      match f2, h2 with
      | m + 1, _ => rfl
    | [c1, c2] =>
      match f2, h2 with
      | m + 1, _ => rfl
    | c1 :: c2 :: c3 :: rest =>
      match f2, h2 with
      | m + 1, h2 =>
        simp only [List.length_cons] at h1 h2
        show fenceSub2Go (n + 1) _ = fenceSub2Go (m + 1) _
        unfold fenceSub2Go
        by_cases hb : c1 = btChar ∧ c2 = btChar ∧ c3 = btChar
        · simp only [if_pos hb]
          exact ih _ _ (by omega) (by omega)
        · simp only [if_neg hb]
          rw [ih m (c2 :: c3 :: rest) (by simp only [List.length_cons]; omega)
            (by simp only [List.length_cons]; omega)]

theorem fenceSub2Go_stable (fuel : Nat) (s : List Char) (h : s.length ≤ fuel) :
    fenceSub2Go fuel s = fenceSub2 s :=
  fenceSub2Go_fuelIrrel fuel s.length s h (Nat.le_refl _)

theorem fenceSub2_nil : fenceSub2 [] = [] := rfl

theorem fenceSub2_one (c : Char) : fenceSub2 [c] = [c] := rfl

theorem fenceSub2_two (c1 c2 : Char) : fenceSub2 [c1, c2] = [c1, c2] := rfl

theorem fenceSub2_cons (c1 c2 c3 : Char) (rest : List Char) :
    fenceSub2 (c1 :: c2 :: c3 :: rest) =
      if c1 = btChar ∧ c2 = btChar ∧ c3 = btChar then
        fenceSub2 rest
      else
        c1 :: fenceSub2 (c2 :: c3 :: rest) := by
  show fenceSub2Go (rest.length + 3) (c1 :: c2 :: c3 :: rest) = _
  unfold fenceSub2Go
  by_cases hb : c1 = btChar ∧ c2 = btChar ∧ c3 = btChar
  · simp only [if_pos hb]
    exact fenceSub2Go_stable _ _ (by omega)
  · simp only [if_neg hb]
    rw [fenceSub2Go_stable _ _ (by simp only [List.length_cons]; omega)]

/-- Python `str.strip()`. -/
def pyStrip (s : List Char) : List Char :=
  ((s.dropWhile isPyWs).reverse.dropWhile isPyWs).reverse

/-- The full step-1 cleaning of `parse_llm_output`. -/
def cleanText (s : List Char) : List Char :=
  pyStrip (fenceSub2 (fenceSub1 s))

/-! ## Step 3 of `parse_llm_output`: greedy brace span

`re.search(r"\{.*\}", cleaned, re.DOTALL)` — with `DOTALL` and a greedy
`.*`, the match (when it exists) runs from the first `{` that is followed
by some later `}`, to the last `}` of the whole text.  Since `.*` matches
every character, this is: first `{` index `i`, last `}` index `j`, match
iff `i < j`. -/

def extractSpan (s : List Char) : Option (List Char) :=
  match s.findIdx? (· = '{'), s.reverse.findIdx? (· = '}') with
  | some i, some jr =>
    let j := s.length - 1 - jr
    if i < j then some ((s.drop i).take (j - i + 1)) else none
  | _, _ => none

/-! ## Step 4 of `parse_llm_output`: trailing-comma repair

`re.sub(r",\s*([}\])])", r"\1", attempt)` — a comma followed by optional
whitespace and a closing `}` or `]` is replaced by just the closing
bracket; scanning resumes after the bracket. -/

def repairCommasGo : Nat → List Char → List Char
  | 0, s => s
  | _ + 1, [] => []
  | fuel + 1, c :: rest =>
    if c = ',' then
      match rest.dropWhile isPyWs with
      | b :: r3 =>
        if b = '}' ∨ b = ']' then b :: repairCommasGo fuel r3
        else c :: repairCommasGo fuel rest
      | [] => c :: repairCommasGo fuel rest
    else c :: repairCommasGo fuel rest

def repairCommas (s : List Char) : List Char := repairCommasGo s.length s

theorem repairCommasGo_fuelIrrel (f1 : Nat) (f2 : Nat) (s : List Char)
    (h1 : s.length ≤ f1) (h2 : s.length ≤ f2) :
    repairCommasGo f1 s = repairCommasGo f2 s := by
  induction f1 generalizing f2 s with
  | zero =>
    match s, h1 with
    | [], _ => cases f2 <;> rfl
  | succ n ih =>
    match s with
    | [] => cases f2 <;> rfl
    | c :: rest =>
      match f2, h2 with
      | m + 1, h2 =>
        simp only [List.length_cons] at h1 h2
        show repairCommasGo (n + 1) _ = repairCommasGo (m + 1) _
        unfold repairCommasGo
        by_cases hc : c = ','
        · simp only [if_pos hc]
          cases hdw : rest.dropWhile isPyWs with
          | nil =>
            simp only
            rw [ih m rest (by omega) (by omega)]
          | cons b r3 =>
            have hlen : r3.length < rest.length := by
              have := List.Sublist.length_le ((List.dropWhile_sublist isPyWs : (List.dropWhile isPyWs rest).Sublist rest))
              rw [hdw] at this
              simp only [List.length_cons] at this
              omega
            simp only
            by_cases hb : b = '}' ∨ b = ']'
            · simp only [if_pos hb]
              rw [ih m r3 (by omega) (by omega)]
            · simp only [if_neg hb]
              rw [ih m rest (by omega) (by omega)]
        · simp only [if_neg hc]
          rw [ih m rest (by omega) (by omega)]

theorem repairCommasGo_stable (fuel : Nat) (s : List Char) (h : s.length ≤ fuel) :
    repairCommasGo fuel s = repairCommas s :=
  repairCommasGo_fuelIrrel fuel s.length s h (Nat.le_refl _)

theorem repairCommas_nil : repairCommas [] = [] := rfl

theorem repairCommas_cons (c : Char) (rest : List Char) :
    repairCommas (c :: rest) =
      if c = ',' then
        match rest.dropWhile isPyWs with
        | b :: r3 =>
          if b = '}' ∨ b = ']' then b :: repairCommas r3
          else c :: repairCommas rest
        | [] => c :: repairCommas rest
      else c :: repairCommas rest := by
  show repairCommasGo (rest.length + 1) (c :: rest) = _
  unfold repairCommasGo
  by_cases hc : c = ','
  · simp only [if_pos hc]
    cases hdw : rest.dropWhile isPyWs with
    | nil => rw [repairCommasGo_stable _ _ (by omega)]
    | cons b r3 =>
      have hlen : r3.length < rest.length ∨ r3.length + 1 = rest.length := by
        have := List.Sublist.length_le ((List.dropWhile_sublist isPyWs : (List.dropWhile isPyWs rest).Sublist rest))
        rw [hdw] at this
        simp only [List.length_cons] at this
        omega
      by_cases hb : b = '}' ∨ b = ']'
      · simp only [if_pos hb]
        rw [repairCommasGo_stable _ _ (by omega)]
      · simp only [if_neg hb]
        rw [repairCommasGo_stable _ _ (by omega)]
  · simp only [if_neg hc]
    rw [repairCommasGo_stable _ _ (by omega)]

/-! ## Step 2 of `parse_llm_output`: `json.loads`

A model of Python's strict `json.loads`: JSON values over the grammar
object / array / string (with escapes) / number / `true` / `false` /
`null`.  Not modelled: the non-standard `NaN`/`Infinity` extensions and
surrogate-pair recombination (no claim exercises them).  Duplicate object
keys are kept in parse order; lookups take the last occurrence, as Python
dict construction does. -/

def hexDigitVal (c : Char) : Option Nat :=
  if 48 ≤ c.toNat ∧ c.toNat ≤ 57 then some (c.toNat - 48)
  else if 97 ≤ c.toNat ∧ c.toNat ≤ 102 then some (c.toNat - 87)
  else if 65 ≤ c.toNat ∧ c.toNat ≤ 70 then some (c.toNat - 55)
  else none

def isDigitCh (c : Char) : Bool := 48 ≤ c.toNat ∧ c.toNat ≤ 57

def digitsToNat (ds : List Char) : Nat :=
  ds.foldl (fun a c => 10 * a + (c.toNat - 48)) 0

/-- Parse the body of a JSON string literal (the opening quote already
consumed): returns the decoded characters and the text after the closing
quote.  Control characters below 0x20 are rejected (strict mode); a
`\uXXXX` escape decodes to the scalar value `XXXX`. -/
def parseJsonString : List Char → Option (List Char × List Char)
  | [] => none
  | c :: rest =>
    if c = '"' then some ([], rest)
    else if c = '\\' then
      match rest with
      | [] => none
      | e :: r2 =>
        if e = '"' ∨ e = '\\' ∨ e = '/' then
          (parseJsonString r2).map (fun p => (e :: p.1, p.2))
        else if e = 'b' then (parseJsonString r2).map (fun p => (Char.ofNat 8 :: p.1, p.2))
        else if e = 'f' then (parseJsonString r2).map (fun p => (Char.ofNat 12 :: p.1, p.2))
        else if e = 'n' then (parseJsonString r2).map (fun p => ('\n' :: p.1, p.2))
        else if e = 'r' then (parseJsonString r2).map (fun p => ('\r' :: p.1, p.2))
        else if e = 't' then (parseJsonString r2).map (fun p => ('\t' :: p.1, p.2))
        else if e = 'u' then
          match r2 with
          | h1 :: h2 :: h3 :: h4 :: r3 =>
            match hexDigitVal h1, hexDigitVal h2, hexDigitVal h3, hexDigitVal h4 with
            | some a, some b, some c3, some d =>
              (parseJsonString r3).map
                (fun p => (Char.ofNat (4096 * a + 256 * b + 16 * c3 + d) :: p.1, p.2))
            | _, _, _, _ => none
          | _ => none
        else none
    else if c.toNat < 32 then none
    else (parseJsonString rest).map (fun p => (c :: p.1, p.2))

/-- Strip a leading minus sign (JSON numbers allow no leading `+`). -/
def stripSign : List Char → Bool × List Char
  | '-' :: r => (true, r)
  | s => (false, s)

/-- Strip a leading exponent sign (`+` or `-`). -/
def stripExpSign : List Char → Bool × List Char
  | '-' :: r => (true, r)
  | '+' :: r => (false, r)
  | s => (false, s)

/-- Parse a JSON number (`-?(0|[1-9][0-9]*)(\.[0-9]+)?([eE][+-]?[0-9]+)?`).
Integer literals become `vInt`; fractional or exponent forms become the
exact-decimal `vFloat m e` (value `m * 10 ^ e`). -/
def parseNumber (s : List Char) : Option (PyVal × List Char) :=
  let signed : Bool × List Char := stripSign s
  let neg := signed.1
  let s1 := signed.2
  let ds := s1.takeWhile isDigitCh
  let s2 := s1.dropWhile isDigitCh
  if hds : ds = [] then none
  else if ds.length > 1 ∧ ds.head hds = '0' then none
  else
    let ip : Int := Int.ofNat (digitsToNat ds)
    let ips : Int := if neg then -ip else ip
    match s2 with
    | '.' :: s3 =>
      let fds := s3.takeWhile isDigitCh
      let s4 := s3.dropWhile isDigitCh
      if fds = [] then none
      else
        let m0 : Int := Int.ofNat (digitsToNat ds * 10 ^ fds.length + digitsToNat fds)
        let m : Int := if neg then -m0 else m0
        match s4 with
        | e :: s5 =>
          if e = 'e' ∨ e = 'E' then
            let esigned : Bool × List Char := stripExpSign s5
            let eds := esigned.2.takeWhile isDigitCh
            let s6 := esigned.2.dropWhile isDigitCh
            if eds = [] then none
            else
              let ev : Int := Int.ofNat (digitsToNat eds)
              let ev2 : Int := if esigned.1 then -ev else ev
              some (PyVal.vFloat m (ev2 - Int.ofNat fds.length), s6)
          else some (PyVal.vFloat m (-(Int.ofNat fds.length)), s4)
        | [] => some (PyVal.vFloat m (-(Int.ofNat fds.length)), [])
    | e :: s3 =>
      if e = 'e' ∨ e = 'E' then
        let esigned : Bool × List Char := stripExpSign s3
        let eds := esigned.2.takeWhile isDigitCh
        let s4 := esigned.2.dropWhile isDigitCh
        if eds = [] then none
        else
          let ev : Int := Int.ofNat (digitsToNat eds)
          let ev2 : Int := if esigned.1 then -ev else ev
          some (PyVal.vFloat ips ev2, s4)
      else some (PyVal.vInt ips, s2)
    | [] => some (PyVal.vInt ips, [])

/-- Skip JSON whitespace. -/
def skipJsonWs (s : List Char) : List Char := s.dropWhile isJsonWs

/-- Items of a non-empty JSON array, positioned at the first character of
an item; `pv` parses one value. -/
def parseItemsGo (pv : List Char → Option (PyVal × List Char)) :
    Nat → List Char → Option (List PyVal × List Char)
  | 0, _ => none
  | fuel + 1, s =>
    match pv s with
    | none => none
    | some (v, r) =>
      match skipJsonWs r with
      | ',' :: r2 =>
        match parseItemsGo pv fuel (skipJsonWs r2) with
        | some (vs, r3) => some (v :: vs, r3)
        | none => none
      | ']' :: r2 => some ([v], r2)
      | _ => none

/-- Members of a non-empty JSON object, positioned at the opening quote of
a key; `pv` parses one value. -/
def parsePairsGo (pv : List Char → Option (PyVal × List Char)) :
    Nat → List Char → Option (PyDict × List Char)
  | 0, _ => none
  | fuel + 1, s =>
    match s with
    | '"' :: rest =>
      match parseJsonString rest with
      | some (k, r1) =>
        match skipJsonWs r1 with
        | ':' :: r2 =>
          match pv (skipJsonWs r2) with
          | some (v, r3) =>
            match skipJsonWs r3 with
            | ',' :: r4 =>
              match parsePairsGo pv fuel (skipJsonWs r4) with
              | some (ps, r5) => some ((k, v) :: ps, r5)
              | none => none
            | '}' :: r4 => some ([(k, v)], r4)
            | _ => none
          | none => none
        | _ => none
      | none => none
    | _ => none

/-- Parse one JSON value, positioned at its first character. -/
def parseValGo : Nat → List Char → Option (PyVal × List Char)
  | 0, _ => none
  | fuel + 1, s =>
    match s with
    | [] => none
    | c :: rest =>
      if c = '{' then
        match skipJsonWs rest with
        | '}' :: r2 => some (PyVal.vDict [], r2)
        | r1 =>
          match parsePairsGo (parseValGo fuel) fuel r1 with
          | some (ps, r2) => some (PyVal.vDict ps, r2)
          | none => none
      else if c = '[' then
        match skipJsonWs rest with
        | ']' :: r2 => some (PyVal.vList [], r2)
        | r1 =>
          match parseItemsGo (parseValGo fuel) fuel r1 with
          | some (vs, r2) => some (PyVal.vList vs, r2)
          | none => none
      else if c = '"' then
        match parseJsonString rest with
        | some (str, r1) => some (PyVal.vStr str, r1)
        | none => none
      else if c = 't' then
        match rest with
        | 'r' :: 'u' :: 'e' :: r1 => some (PyVal.vBool true, r1)
        | _ => none
      else if c = 'f' then
        match rest with
        | 'a' :: 'l' :: 's' :: 'e' :: r1 => some (PyVal.vBool false, r1)
        | _ => none
      else if c = 'n' then
        match rest with
        | 'u' :: 'l' :: 'l' :: r1 => some (PyVal.vNone, r1)
        | _ => none
      else parseNumber s

/-- Python `json.loads`: parse one value surrounded by optional
whitespace; anything left over is an error. -/
def jsonLoads (s : List Char) : Option PyVal :=
  let s1 := skipJsonWs s
  match parseValGo (s1.length + 1) s1 with
  | some (v, r) => if skipJsonWs r = [] then some v else none
  | none => none

/-! ## `parse_llm_output` -/

/-- `parse_llm_output` from `bookbot/recommender.py`: fence stripping,
direct parse, greedy brace-span extraction, trailing-comma repair.
Succeeds only when a stage yields a JSON *object* (Python `dict`). -/
def parseLlmOutput (raw : List Char) : Option PyDict :=
  let cleaned := cleanText raw
  match jsonLoads cleaned with
  | some (PyVal.vDict d) => some d
  | _ =>
    match extractSpan cleaned with
    | none => none
    | some span =>
      match jsonLoads span with
      | some (PyVal.vDict d) => some d
      | _ =>
        match jsonLoads (repairCommas span) with
        | some (PyVal.vDict d) => some d
        | _ => none

/-! ## Business-logic validation (`validate_recommendation`,
`validate_recommendations`)

Python dict/`in`/`[]`/`int()` behaviour is modelled on `PyVal`; a raised
`TypeError`/`KeyError` is `Except.error ()`. -/

/-- ASCII lowering, modelling `str.lower()` (the pipeline's titles are
compared after `strip().lower()`). -/
def asciiLower (c : Char) : Char :=
  if 65 ≤ c.toNat ∧ c.toNat ≤ 90 then Char.ofNat (c.toNat + 32) else c

/-- `title.strip().lower()` — the normalised title key. -/
def normTitle (s : List Char) : List Char := (pyStrip s).map asciiLower

/-- Lookup in a Python dict built by repeated insertion: the *last*
occurrence of a key wins. -/
def lookupLast (d : PyDict) (k : List Char) : Option PyVal :=
  match d with
  | [] => none
  | (k0, v0) :: rest =>
    match lookupLast rest k with
    | some v => some v
    | none => if k0 = k then some v0 else none

/-- Python `==` between a value and a string literal. -/
def pyValEqStr (v : PyVal) (k : List Char) : Bool :=
  match v with
  | .vStr s => s = k
  | _ => false

/-- `needle` occurs as a contiguous substring of `hay`. -/
def strContains (hay needle : List Char) : Bool :=
  match hay with
  | [] => needle.isPrefixOf []
  | _ :: rest => needle.isPrefixOf hay || strContains rest needle

/-- Python `k in container`: key test for dicts, substring test for
strings, membership for lists; `TypeError` otherwise. -/
def pyContains (container : PyVal) (k : List Char) : Except Unit Bool :=
  match container with
  | .vDict d => .ok (d.any (fun p => p.1 = k))
  | .vStr s => .ok (strContains s k)
  | .vList l => .ok (l.any (fun v => pyValEqStr v k))
  | _ => .error ()

/-- Python `container[k]` for a string key: dict lookup (`KeyError` when
missing), `TypeError` otherwise. -/
def pyGetItem (container : PyVal) (k : List Char) : Except Unit PyVal :=
  match container with
  | .vDict d =>
    match lookupLast d k with
    | some v => .ok v
    | none => .error ()
  | _ => .error ()

/-- Digit run with single underscores strictly between digits, as accepted
by Python's `int(str)`. -/
def digitsUnd : List Char → Option Nat
  | [] => none
  | c :: rest =>
    if isDigitCh c then digitsUndGo (c.toNat - 48) rest else none
where
  digitsUndGo (acc : Nat) : List Char → Option Nat
    | [] => some acc
    | '_' :: d :: r =>
      if isDigitCh d then digitsUndGo (10 * acc + (d.toNat - 48)) r else none
    | ['_'] => none
    | d :: r =>
      if isDigitCh d then digitsUndGo (10 * acc + (d.toNat - 48)) r else none

/-- Python `int(str)`: surrounding whitespace, optional sign, digits. -/
def pyIntOfString (s : List Char) : Option Int :=
  match pyStrip s with
  | '-' :: r => (digitsUnd r).map (fun n => -(Int.ofNat n))
  | '+' :: r => (digitsUnd r).map Int.ofNat
  | r => (digitsUnd r).map Int.ofNat

/-- `int(float)` truncation toward zero on the exact-decimal model. -/
def floatTrunc (m : Int) (e : Int) : Int :=
  if 0 ≤ e then m * 10 ^ e.toNat else Int.tdiv m (10 ^ (-e).toNat)

/-- Python `int(x)`: `none` models a raised `ValueError`/`TypeError`
(which `validate_recommendation` catches). -/
def pyIntCoerce (v : PyVal) : Option Int :=
  match v with
  | .vInt n => some n
  | .vBool b => some (if b then 1 else 0)
  | .vFloat m e => some (floatTrunc m e)
  | .vStr s => pyIntOfString s
  | _ => none

def fTitle : List Char := "title".toList
def fAuthor : List Char := "author".toList
def fYear : List Char := "publication_year".toList
def fExplanation : List Char := "explanation".toList

/-- `validate_recommendation(rec, prefs)` from `bookbot/recommender.py`. -/
def validateRecommendation (rec : PyVal) (_prefs : Prefs) : Except Unit Bool := do
  -- Required fields, checked in source order with early return
  let hasTitle ← pyContains rec fTitle
  if ¬ hasTitle then return false
  let hasAuthor ← pyContains rec fAuthor
  if ¬ hasAuthor then return false
  let hasYear ← pyContains rec fYear
  if ¬ hasYear then return false
  let hasExpl ← pyContains rec fExplanation
  if ¬ hasExpl then return false
  -- title / author / explanation: strings, non-empty after strip
  let title ← pyGetItem rec fTitle
  match title with
  | .vStr s => if pyStrip s = [] then return false
  | _ => return false
  let author ← pyGetItem rec fAuthor
  match author with
  | .vStr s => if pyStrip s = [] then return false
  | _ => return false
  let expl ← pyGetItem rec fExplanation
  match expl with
  | .vStr s => if pyStrip s = [] then return false
  | _ => return false
  -- publication year sanity
  let yearVal ← pyGetItem rec fYear
  match pyIntCoerce yearVal with
  | none => return false
  | some year =>
    if year < 1450 ∨ year > 2026 then return false
    -- explanation length bounds
    let expl2 ← pyGetItem rec fExplanation
    match expl2 with
    | .vStr s =>
      if s.length < 10 ∨ s.length > 1000 then return false
      return true
    | _ => return false

/-- The normalised title of a (validated) recommendation dict; items that
would make the source raise are given an inert default, which the
orchestration never reaches. -/
def recKey (r : PyVal) : List Char :=
  match r with
  | .vDict d =>
    match lookupLast d fTitle with
    | some (.vStr s) => normTitle s
    | _ => []
  | _ => []

/-- Sequential filtering in the `Except` monad (a Python list
comprehension whose predicate may raise). -/
def exceptFilter (p : PyVal → Except Unit Bool) : List PyVal → Except Unit (List PyVal)
  | [] => .ok []
  | r :: rs => do
    let b ← p r
    let rest ← exceptFilter p rs
    if b then return r :: rest else return rest

/-- The duplicate-title pass of `validate_recommendations`: keep the first
occurrence of each normalised title. -/
def dedupRecsGo (seen : List (List Char)) : List PyVal → List PyVal
  | [] => []
  | r :: rs =>
    let key := recKey r
    if seen.contains key then dedupRecsGo seen rs
    else r :: dedupRecsGo (key :: seen) rs

/-- The body of `validate_recommendations` once `recommendations` has been
extracted as a list: truncate to 5, validate each item, deduplicate by
normalised title, fail below 3, return at most the first 5. -/
def validateRecsList (recs : List PyVal) (prefs : Prefs) : Except Unit (Option (List PyVal)) :=
  match exceptFilter (fun r => validateRecommendation r prefs)
      (if recs.length > 5 then recs.take 5 else recs) with
  | .error e => .error e
  | .ok valid =>
    if (dedupRecsGo [] valid).length < 3 then .ok none
    else .ok (some ((dedupRecsGo [] valid).take 5))

def kRecommendations : List Char := "recommendations".toList

/-- `validate_recommendations(parsed, prefs)` from `bookbot/recommender.py`. -/
def validateRecommendations (parsed : PyDict) (prefs : Prefs) : Except Unit (Option (List PyVal)) :=
  match lookupLast parsed kRecommendations with
  | some (.vList recs) => validateRecsList recs prefs
  | _ => .ok none

/-! ## Orchestration (`cli.generate_recommendations`,
`scheduler._generate_for_subscriber`)

The external model is abstracted as `llm : Nat → Option (List Char)`, the
raw text produced by `call_llm` on each orchestrator attempt (`none` for a
transport failure).  The CLI loop also counts how many model invocations
it makes. -/

/-- `MAX_RETRIES` from `bookbot/recommender.py`. -/
def MAX_RETRIES : Nat := 3

/-- `MAX_ATTEMPTS` from `bookbot/scheduler.py`. -/
def MAX_ATTEMPTS : Nat := 3

/-- `_filter_duplicates(recs, already)` from `bookbot/cli.py`. -/
def filterDuplicates (recs : List PyVal) (already : List (List Char)) : List PyVal :=
  if already = [] then recs
  else
    let seen := already.map normTitle
    recs.filter (fun r => !(seen.contains (recKey r)))

/-- The retry loop of `generate_recommendations`, iterating over the
attempt numbers `[1, , MAX_RETRIES]`; returns the outcome and the number
of model invocations made. -/
def cliGenGo (llm : Nat → Option (List Char)) (prefs : Prefs) (already : List (List Char)) :
    List Nat → Except Unit (Option (List PyVal)) × Nat
  | [] => (.ok none, 0)
  | attempt :: restAttempts =>
    match llm attempt with
    | none =>
      -- `if attempt < MAX_RETRIES: continue` / final-attempt `break`
      if attempt < MAX_RETRIES then
        ((cliGenGo llm prefs already restAttempts).1,
          (cliGenGo llm prefs already restAttempts).2 + 1)
      else (.ok none, 1)
    | some raw =>
      match parseLlmOutput raw with
      | none =>
        if attempt < MAX_RETRIES then
          ((cliGenGo llm prefs already restAttempts).1,
            (cliGenGo llm prefs already restAttempts).2 + 1)
        else (.ok none, 1)
      | some parsed =>
        match validateRecommendations parsed prefs with
        | .error e => (.error e, 1)
        | .ok none =>
          if attempt < MAX_RETRIES then
            ((cliGenGo llm prefs already restAttempts).1,
              (cliGenGo llm prefs already restAttempts).2 + 1)
          else (.ok none, 1)
        | .ok (some final) =>
          if (filterDuplicates final already).isEmpty then
            if attempt < MAX_RETRIES then
              ((cliGenGo llm prefs already restAttempts).1,
                (cliGenGo llm prefs already restAttempts).2 + 1)
            else (.ok none, 1)
          else (.ok (some (filterDuplicates final already)), 1)

/-- `generate_recommendations(user_prompt, prefs, already_recommended)`
from `bookbot/cli.py` (first component), paired with the number of
`call_llm` invocations (second component). -/
def generateRecommendations (llm : Nat → Option (List Char)) (prefs : Prefs)
    (already : List (List Char)) : Except Unit (Option (List PyVal)) × Nat :=
  cliGenGo llm prefs already (List.range' 1 MAX_RETRIES)

/-- The exclusion step of `_generate_for_subscriber`: only applied when
the stored exclusion list is non-empty. -/
def schedExcludeFilter (final : List PyVal) (exclude : List (List Char)) : List PyVal :=
  if exclude = [] then final
  else final.filter (fun r => !((exclude.map normTitle).contains (recKey r)))

/-- The retry loop of `_generate_for_subscriber`. -/
def schedGenGo (llm : Nat → Option (List Char)) (prefs : Prefs) (exclude : List (List Char)) :
    List Nat → Except Unit (Option (List PyVal))
  | [] => .ok none
  | attempt :: restAttempts =>
    match llm attempt with
    | none => schedGenGo llm prefs exclude restAttempts
    | some raw =>
      match parseLlmOutput raw with
      | none => schedGenGo llm prefs exclude restAttempts
      | some parsed =>
        match validateRecommendations parsed prefs with
        | .error e => .error e
        | .ok none => schedGenGo llm prefs exclude restAttempts
        | .ok (some final) =>
          if (schedExcludeFilter final exclude).isEmpty then
            schedGenGo llm prefs exclude restAttempts
          else .ok (some (schedExcludeFilter final exclude))

/-- `_generate_for_subscriber` from `bookbot/scheduler.py`, abstracted
over the subscriber's preferences and stored exclusion titles. -/
def generateForSubscriber (llm : Nat → Option (List Char)) (prefs : Prefs)
    (exclude : List (List Char)) : Except Unit (Option (List PyVal)) :=
  schedGenGo llm prefs exclude (List.range' 1 MAX_ATTEMPTS)

/-! ## Helper lemmas -/

theorem exBind_ok {α β : Type} (a : α) (f : α → Except Unit β) :
    (Except.ok a >>= f) = f a := rfl

theorem exBind_error {α β : Type} (f : α → Except Unit β) :
    ((Except.error () : Except Unit α) >>= f) = Except.error () := rfl

/-- The success value of `validate_recommendations` is the deduplicated
valid list capped at five. -/
theorem validateRecsList_ok_some_eq (recs : List PyVal) (prefs : Prefs)
    (valid : List PyVal) (l : List PyVal)
    (hf : exceptFilter (fun r => validateRecommendation r prefs)
        (if recs.length > 5 then recs.take 5 else recs) = .ok valid)
    (h : validateRecsList recs prefs = .ok (some l)) :
    ¬ (dedupRecsGo [] valid).length < 3 ∧ l = (dedupRecsGo [] valid).take 5 := by
  unfold validateRecsList at h
  rw [hf] at h
  by_cases hd : (dedupRecsGo [] valid).length < 3
  · simp only [hd, if_true, if_pos] at h
    exact absurd h (by simp)
  · refine ⟨hd, ?_⟩
    simp only [hd, if_false, if_neg, not_false_iff] at h
    exact (Option.some.inj (Except.ok.inj h)).symm

/-- Cardinality of the success value of `validateRecsList`. -/
theorem validateRecsList_ok_some_bounds (recs : List PyVal) (prefs : Prefs)
    (l : List PyVal) (h : validateRecsList recs prefs = .ok (some l)) :
    3 ≤ l.length ∧ l.length ≤ 5 := by
  cases hf : exceptFilter (fun r => validateRecommendation r prefs)
      (if recs.length > 5 then recs.take 5 else recs) with
  | error e =>
    unfold validateRecsList at h
    rw [hf] at h
    exact absurd h (by simp)
  | ok valid =>
    obtain ⟨hd, hl⟩ := validateRecsList_ok_some_eq recs prefs valid l hf h
    subst hl
    constructor
    · rw [List.length_take]
      omega
    · rw [List.length_take]
      omega

/-- Cardinality of the success value of `validate_recommendations`. -/
theorem validateRecommendations_ok_some_bounds (parsed : PyDict) (prefs : Prefs)
    (l : List PyVal) (h : validateRecommendations parsed prefs = .ok (some l)) :
    3 ≤ l.length ∧ l.length ≤ 5 := by
  unfold validateRecommendations at h
  cases hlk : lookupLast parsed kRecommendations with
  | none =>
    rw [hlk] at h
    exact absurd h (by simp [pure, Except.pure])
  | some v =>
    rw [hlk] at h
    cases v with
    | vList recs => exact validateRecsList_ok_some_bounds recs prefs l h
    | vStr s => exact absurd h (by simp [pure, Except.pure])
    | vInt n => exact absurd h (by simp [pure, Except.pure])
    | vFloat m e => exact absurd h (by simp [pure, Except.pure])
    | vBool b => exact absurd h (by simp [pure, Except.pure])
    | vNone => exact absurd h (by simp [pure, Except.pure])
    | vDict d => exact absurd h (by simp [pure, Except.pure])

/-- C2: `validate_recommendations` never returns fewer than 3 or more than
5 items, and over-long inputs are truncated to their first 5 items before
per-item validation, so the whole run agrees with running on the
truncation. -/
theorem C2_validate_cardinality :
    (∀ (parsed : PyDict) (prefs : Prefs) (l : List PyVal),
      validateRecommendations parsed prefs = .ok (some l) →
        3 ≤ l.length ∧ l.length ≤ 5) ∧
    (∀ (recs : List PyVal) (prefs : Prefs),
      validateRecsList recs prefs = validateRecsList (recs.take 5) prefs) := by
  constructor
  · exact validateRecommendations_ok_some_bounds
  · intro recs prefs
    unfold validateRecsList
    have htr1 : (if recs.length > 5 then recs.take 5 else recs) = recs.take 5 := by
      split
      · rfl
      · rename_i hn
        rw [List.take_of_length_le (by omega)]
    have htr2 : (if (recs.take 5).length > 5 then (recs.take 5).take 5 else recs.take 5)
        = recs.take 5 := by
      split
      · rename_i hn
        rw [List.length_take] at hn
        omega
      · rfl
    rw [htr1, htr2]

/-! ## Sample data for witnesses -/

def samplePrefs : Prefs :=
  ⟨["fantasy".toList], ["Book A".toList, "Book B".toList], 3⟩

/-- A fully valid recommendation dict with the given title. -/
def sampleRec (t : List Char) : PyVal :=
  PyVal.vDict [(fTitle, .vStr t), (fAuthor, .vStr "An Author".toList),
    (fYear, .vInt 1999), (fExplanation, .vStr "A lovely, moving story.".toList)]

def sampleRecs : List PyVal :=
  [sampleRec "Dune".toList, sampleRec "Hyperion".toList, sampleRec "Solaris".toList]

def sampleParsed : PyDict := [(kRecommendations, .vList sampleRecs)]

/-- C2 (witness): a concrete payload on which `validate_recommendations`
succeeds, whose result the theorem bounds, and a concrete truncation
instance. -/
theorem C2_validate_cardinality_witness :
    (3 ≤ sampleRecs.length ∧ sampleRecs.length ≤ 5) ∧
    validateRecsList sampleRecs samplePrefs = validateRecsList (sampleRecs.take 5) samplePrefs :=
  ⟨C2_validate_cardinality.1 sampleParsed samplePrefs sampleRecs (by rfl),
   C2_validate_cardinality.2 sampleRecs samplePrefs⟩

/-! ## C7: deduplication by normalised title -/

/-- Reference form of first-occurrence deduplication: keep the head,
remove every later item with the same normalised title, recurse. -/
def keepFirstByKey : List PyVal → List PyVal
  | [] => []
  | r :: rs => r :: keepFirstByKey (rs.filter (fun x => !(recKey x == recKey r)))
termination_by l => l.length
decreasing_by
  simp only [List.length_cons]
  exact Nat.lt_succ_of_le (List.Sublist.length_le (List.filter_sublist _))

theorem keepFirstByKey_nil : keepFirstByKey [] = [] := by
  rw [keepFirstByKey.eq_def]

theorem keepFirstByKey_cons (r : PyVal) (rs : List PyVal) :
    keepFirstByKey (r :: rs)
      = r :: keepFirstByKey (rs.filter (fun x => !(recKey x == recKey r))) := by
  conv_lhs => rw [keepFirstByKey.eq_def]

theorem dedupRecsGo_eq_keepFirst (l : List PyVal) :
    ∀ seen : List (List Char),
      dedupRecsGo seen l = keepFirstByKey (l.filter (fun r => !(seen.contains (recKey r)))) := by
  induction l with
  | nil =>
    intro seen
    simp only [dedupRecsGo, List.filter_nil, keepFirstByKey_nil]
  | cons r rs ih =>
    intro seen
    cases hc : seen.contains (recKey r) with
    | true =>
      simp only [dedupRecsGo, hc, if_true, if_pos, List.filter_cons, Bool.not_true,
        Bool.false_eq_true, if_false, if_neg, not_false_iff]
      exact ih seen
    | false =>
      simp only [dedupRecsGo, hc, Bool.false_eq_true, if_false, if_neg, not_false_iff,
        List.filter_cons, Bool.not_false, if_true, if_pos]
      rw [ih (recKey r :: seen), keepFirstByKey_cons, List.filter_filter]
      congr 1
      congr 1
      apply List.filter_congr
      intro x _
      show (!((recKey r :: seen).contains (recKey x)))
          = ((!(recKey x == recKey r)) && !(seen.contains (recKey x)))
      rw [List.contains_cons, Bool.not_or]

theorem keepFirstByKey_sublist (l : List PyVal) : (keepFirstByKey l).Sublist l := by
  induction l using keepFirstByKey.induct with
  | case1 =>
    rw [keepFirstByKey_nil]
  | case2 r rs ih =>
    rw [keepFirstByKey_cons]
    exact List.Sublist.cons₂ r
      (List.Sublist.trans ih (List.filter_sublist rs))

theorem keepFirstByKey_pairwise (l : List PyVal) :
    (keepFirstByKey l).Pairwise (fun a b => recKey a ≠ recKey b) := by
  induction l using keepFirstByKey.induct with
  | case1 =>
    rw [keepFirstByKey_nil]
    exact List.Pairwise.nil
  | case2 r rs ih =>
    rw [keepFirstByKey_cons]
    refine List.Pairwise.cons ?_ ih
    intro x hx
    have hmem : x ∈ rs.filter (fun x => !(recKey x == recKey r)) :=
      (keepFirstByKey_sublist _).mem hx
    have := (List.mem_filter.mp hmem).2
    simp only [Bool.not_eq_true', beq_eq_false_iff_ne, ne_eq] at this
    exact fun heq => this heq.symm

theorem filter_no_seen (valid : List PyVal) :
    valid.filter (fun r => !(([] : List (List Char)).contains (recKey r))) = valid := by
  simp

theorem dedupRecs_eq_keepFirst (valid : List PyVal) :
    dedupRecsGo [] valid = keepFirstByKey valid := by
  rw [dedupRecsGo_eq_keepFirst valid [], filter_no_seen]

/-- C7: `validate_recommendations` deduplicates the surviving candidates
by normalised title (trim + case-fold): the kept list is exactly the
first-occurrence sweep `keepFirstByKey` (first-seen kept, later
duplicates discarded), it is a sublist of the survivors (so relative
order is the original order), its normalised titles are pairwise
distinct, and the returned value is that deduplicated list capped at 5. -/
theorem C7_dedup_first_seen :
    (∀ valid : List PyVal, dedupRecsGo [] valid = keepFirstByKey valid) ∧
    (∀ valid : List PyVal, (dedupRecsGo [] valid).Sublist valid) ∧
    (∀ valid : List PyVal, (dedupRecsGo [] valid).Pairwise (fun a b => recKey a ≠ recKey b)) ∧
    (∀ (recs : List PyVal) (prefs : Prefs) (valid l : List PyVal),
      exceptFilter (fun r => validateRecommendation r prefs)
          (if recs.length > 5 then recs.take 5 else recs) = .ok valid →
      validateRecsList recs prefs = .ok (some l) →
      l = (keepFirstByKey valid).take 5) := by
  refine ⟨dedupRecs_eq_keepFirst, ?_, ?_, ?_⟩
  · intro valid
    rw [dedupRecs_eq_keepFirst]
    exact keepFirstByKey_sublist valid
  · intro valid
    rw [dedupRecs_eq_keepFirst]
    exact keepFirstByKey_pairwise valid
  · intro recs prefs valid l hf h
    obtain ⟨_, hl⟩ := validateRecsList_ok_some_eq recs prefs valid l hf h
    rw [hl, dedupRecs_eq_keepFirst]

/-- Candidates with a case/whitespace duplicate title. -/
def dupRecs : List PyVal :=
  [sampleRec "Dune".toList, sampleRec "  DUNE ".toList,
   sampleRec "Hyperion".toList, sampleRec "Solaris".toList]

def dupDeduped : List PyVal :=
  [sampleRec "Dune".toList, sampleRec "Hyperion".toList, sampleRec "Solaris".toList]

/-- C7 (witness): on a concrete batch containing `"Dune"` and `"  DUNE "`,
the duplicate collapses onto the first occurrence and order is kept. -/
theorem C7_dedup_first_seen_witness :
    dupDeduped = (keepFirstByKey dupRecs).take 5 :=
  C7_dedup_first_seen.2.2.2 dupRecs samplePrefs dupRecs dupDeduped (by rfl) (by rfl)

/-- C8: `_filter_duplicates` removes exactly the items whose normalised
title (trim + case-fold) matches an exclusion entry under the same
normalisation, and keeps the remaining items in their original order (the
model is a pure function, so its inputs are untouched). -/
theorem C8_exclusion_filter (recs : List PyVal) (already : List (List Char)) :
    filterDuplicates recs already
        = recs.filter (fun r => !((already.map normTitle).contains (recKey r))) ∧
    (filterDuplicates recs already).Sublist recs ∧
    (∀ r : PyVal, r ∈ filterDuplicates recs already ↔
      (r ∈ recs ∧ ((already.map normTitle).contains (recKey r)) = false)) := by
  have heq : filterDuplicates recs already
      = recs.filter (fun r => !((already.map normTitle).contains (recKey r))) := by
    unfold filterDuplicates
    by_cases ha : already = []
    · subst ha
      simp only [if_true, if_pos, List.map_nil]
      exact (filter_no_seen recs).symm
    · simp only [ha, if_false, if_neg, not_false_iff]
  refine ⟨heq, ?_, ?_⟩
  · rw [heq]
    exact List.filter_sublist recs
  · intro r
    rw [heq]
    constructor
    · intro hm
      have := List.mem_filter.mp hm
      exact ⟨this.1, by simpa using this.2⟩
    · intro ⟨h1, h2⟩
      exact List.mem_filter.mpr ⟨h1, by simpa using h2⟩

/-! ## C6: publication-year bounds in `validate_recommendation` -/

/-- A candidate dict with given title, author, publication year and
explanation. -/
def mkCand (t a : List Char) (y : PyVal) (e : List Char) : PyVal :=
  PyVal.vDict [(fTitle, .vStr t), (fAuthor, .vStr a), (fYear, y), (fExplanation, .vStr e)]

theorem mkCand_has_title (t a : List Char) (y : PyVal) (e : List Char) :
    pyContains (mkCand t a y e) fTitle = .ok true := rfl

theorem mkCand_has_author (t a : List Char) (y : PyVal) (e : List Char) :
    pyContains (mkCand t a y e) fAuthor = .ok true := rfl

theorem mkCand_has_year (t a : List Char) (y : PyVal) (e : List Char) :
    pyContains (mkCand t a y e) fYear = .ok true := rfl

theorem mkCand_has_expl (t a : List Char) (y : PyVal) (e : List Char) :
    pyContains (mkCand t a y e) fExplanation = .ok true := rfl

theorem mkCand_get_title (t a : List Char) (y : PyVal) (e : List Char) :
    pyGetItem (mkCand t a y e) fTitle = .ok (.vStr t) := rfl

theorem mkCand_get_author (t a : List Char) (y : PyVal) (e : List Char) :
    pyGetItem (mkCand t a y e) fAuthor = .ok (.vStr a) := rfl

theorem mkCand_get_year (t a : List Char) (y : PyVal) (e : List Char) :
    pyGetItem (mkCand t a y e) fYear = .ok y := rfl

theorem mkCand_get_expl (t a : List Char) (y : PyVal) (e : List Char) :
    pyGetItem (mkCand t a y e) fExplanation = .ok (.vStr e) := rfl

/-- Evaluation of `validate_recommendation` on a candidate whose string
fields are valid: the outcome is decided by the year coercion and range. -/
theorem validateRecommendation_mkCand (t a e : List Char) (y : PyVal) (prefs : Prefs)
    (ht : ¬ pyStrip t = []) (ha : ¬ pyStrip a = []) (he : ¬ pyStrip e = [])
    (hel : 10 ≤ e.length) (heu : e.length ≤ 1000) :
    validateRecommendation (mkCand t a y e) prefs =
      (match pyIntCoerce y with
       | none => .ok false
       | some year => if year < 1450 ∨ year > 2026 then .ok false else .ok true) := by
  unfold validateRecommendation
  rw [mkCand_has_title, mkCand_has_author, mkCand_has_year, mkCand_has_expl,
    mkCand_get_title, mkCand_get_author, mkCand_get_year, mkCand_get_expl]
  simp only [exBind_ok, not_true, Bool.not_eq_true]
  rw [if_neg ht, if_neg ha, if_neg he]
  cases hy : pyIntCoerce y with
  | none => rfl
  | some year =>
    simp only
    by_cases hr : year < 1450 ∨ year > 2026
    · simp only [hr, if_true, if_pos]
      rfl
    · simp only [hr, if_false, if_neg, not_false_iff]
      rw [if_neg (show ¬ (e.length < 10 ∨ e.length > 1000) by omega)]
      rfl

/-- C6: with all other fields valid, `validate_recommendation` rejects a
candidate whose `publication_year` is 1300 or 2100 (and in general any
value whose integer coercion falls outside `[1450, 2026]`), accepts one
whose year is 1925, and rejects one whose year does not coerce to an
integer. -/
theorem C6_year_bounds (t a e : List Char) (prefs : Prefs)
    (ht : pyStrip t ≠ []) (ha : pyStrip a ≠ []) (he : pyStrip e ≠ [])
    (hel : 10 ≤ e.length) (heu : e.length ≤ 1000) :
    validateRecommendation (mkCand t a (.vInt 1300) e) prefs = .ok false ∧
    validateRecommendation (mkCand t a (.vInt 2100) e) prefs = .ok false ∧
    validateRecommendation (mkCand t a (.vInt 1925) e) prefs = .ok true ∧
    (∀ (y : PyVal) (n : Int), pyIntCoerce y = some n → (n < 1450 ∨ 2026 < n) →
      validateRecommendation (mkCand t a y e) prefs = .ok false) ∧
    (∀ y : PyVal, pyIntCoerce y = none →
      validateRecommendation (mkCand t a y e) prefs = .ok false) := by
  refine ⟨?_, ?_, ?_, ?_, ?_⟩
  · rw [validateRecommendation_mkCand t a e _ prefs ht ha he hel heu]
    rfl
  · rw [validateRecommendation_mkCand t a e _ prefs ht ha he hel heu]
    rfl
  · rw [validateRecommendation_mkCand t a e _ prefs ht ha he hel heu]
    rfl
  · intro y n hy hn
    rw [validateRecommendation_mkCand t a e _ prefs ht ha he hel heu, hy]
    simp only
    rw [if_pos (by omega)]
  · intro y hy
    rw [validateRecommendation_mkCand t a e _ prefs ht ha he hel heu, hy]

/-- C6 (witness): the year bounds at a concrete candidate. -/
theorem C6_year_bounds_witness :
    validateRecommendation
        (mkCand "Dune".toList "Frank Herbert".toList (.vInt 1300)
          "A sweeping desert epic.".toList) samplePrefs = .ok false ∧
    validateRecommendation
        (mkCand "Dune".toList "Frank Herbert".toList (.vInt 2100)
          "A sweeping desert epic.".toList) samplePrefs = .ok false ∧
    validateRecommendation
        (mkCand "Dune".toList "Frank Herbert".toList (.vInt 1925)
          "A sweeping desert epic.".toList) samplePrefs = .ok true ∧
    validateRecommendation
        (mkCand "Dune".toList "Frank Herbert".toList (.vStr "soon".toList)
          "A sweeping desert epic.".toList) samplePrefs = .ok false := by
  have h := C6_year_bounds "Dune".toList "Frank Herbert".toList
    "A sweeping desert epic.".toList samplePrefs
    (by decide) (by decide) (by decide) (by decide) (by decide)
  exact ⟨h.1, h.2.1, h.2.2.1, h.2.2.2.2 (.vStr "soon".toList) (by rfl)⟩

/-! ## C1 / C9 / C10: orchestrator-level properties -/

theorem filterDuplicates_eq_sched (recs : List PyVal) (ex : List (List Char)) :
    filterDuplicates recs ex = schedExcludeFilter recs ex := rfl

theorem filterDuplicates_sublist (recs : List PyVal) (already : List (List Char)) :
    (filterDuplicates recs already).Sublist recs := by
  unfold filterDuplicates
  split
  · exact List.Sublist.refl recs
  · exact List.filter_sublist recs

/-- Any success of the CLI retry loop carries between 1 and 5
recommendations: the validator guarantees at most 5 and the loop only
accepts a non-empty exclusion-filtered list. -/
theorem cliGenGo_ok_some_bounds (L : List Nat) :
    ∀ (llm : Nat → Option (List Char)) (prefs : Prefs) (already : List (List Char))
      (l : List PyVal),
      (cliGenGo llm prefs already L).1 = .ok (some l) →
        1 ≤ l.length ∧ l.length ≤ 5 := by
  induction L with
  | nil =>
    intro llm prefs already l h
    simp [cliGenGo] at h
  | cons a rest ih =>
    intro llm prefs already l h
    unfold cliGenGo at h
    cases hllm : llm a with
    | none =>
      simp only [hllm] at h
      by_cases hlt : a < MAX_RETRIES
      · rw [if_pos hlt] at h
        exact ih llm prefs already l h
      · rw [if_neg hlt] at h
        simp at h
    | some raw =>
      simp only [hllm] at h
      cases hp : parseLlmOutput raw with
      | none =>
        simp only [hp] at h
        by_cases hlt : a < MAX_RETRIES
        · rw [if_pos hlt] at h
          exact ih llm prefs already l h
        · rw [if_neg hlt] at h
          simp at h
      | some parsed =>
        simp only [hp] at h
        cases hv : validateRecommendations parsed prefs with
        | error e =>
          simp only [hv] at h
          simp at h
        | ok o =>
          simp only [hv] at h
          cases o with
          | none =>
            dsimp only at h
            by_cases hlt : a < MAX_RETRIES
            · rw [if_pos hlt] at h
              exact ih llm prefs already l h
            · rw [if_neg hlt] at h
              simp at h
          | some final =>
            dsimp only at h
            by_cases hemp : (filterDuplicates final already).isEmpty
            · rw [if_pos hemp] at h
              by_cases hlt : a < MAX_RETRIES
              · rw [if_pos hlt] at h
                exact ih llm prefs already l h
              · rw [if_neg hlt] at h
                simp at h
            · rw [if_neg hemp] at h
              simp only at h
              have hl : filterDuplicates final already = l :=
                Option.some.inj (Except.ok.inj h)
              have hb := validateRecommendations_ok_some_bounds parsed prefs final hv
              have hsub := filterDuplicates_sublist final already
              constructor
              · rw [← hl]
                have hne : filterDuplicates final already ≠ [] := by
                  intro hc
                  rw [hc] at hemp
                  exact hemp rfl
                have := List.length_pos.mpr hne
                omega
              · rw [← hl]
                have := List.Sublist.length_le hsub
                omega

/-- C1 (amended): a successful pipeline run returns between 1 and 5
recommendations; the claimed lower bound of 3 does not survive the
exclusion filter, which only retries when the filtered list is empty. -/
theorem C1_success_cardinality_amended (llm : Nat → Option (List Char)) (prefs : Prefs)
    (already : List (List Char)) (l : List PyVal)
    (h : (generateRecommendations llm prefs already).1 = .ok (some l)) :
    1 ≤ l.length ∧ l.length ≤ 5 :=
  cliGenGo_ok_some_bounds (List.range' 1 MAX_RETRIES) llm prefs already l h

/-- Raw model output carrying three valid recommendations. -/
def cxRaw : List Char :=
  ("\x7b\"recommendations\": [" ++
   "\x7b\"title\": \"Dune\", \"author\": \"An Author\", \"publication_year\": 1999, " ++
   "\"explanation\": \"A lovely, moving story.\"\x7d, " ++
   "\x7b\"title\": \"Hyperion\", \"author\": \"An Author\", \"publication_year\": 1999, " ++
   "\"explanation\": \"A lovely, moving story.\"\x7d, " ++
   "\x7b\"title\": \"Solaris\", \"author\": \"An Author\", \"publication_year\": 1999, " ++
   "\"explanation\": \"A lovely, moving story.\"\x7d]\x7d").toList

def cxLlm : Nat → Option (List Char) := fun _ => some cxRaw

/-- Two of the three delivered titles are already excluded (with
case/whitespace noise). -/
def cxAlready : List (List Char) := ["Dune".toList, "  hyperion ".toList]

set_option maxRecDepth 100000 in
/-- C1 (counterexample): with three valid candidates of which two are
excluded, `generate_recommendations` succeeds with a single
recommendation, so the claimed 3–5 cardinality invariant of successful
runs is false. -/
theorem C1_success_cardinality_counterexample :
    ¬ (∀ (llm : Nat → Option (List Char)) (prefs : Prefs) (already : List (List Char))
        (l : List PyVal),
        (generateRecommendations llm prefs already).1 = .ok (some l) →
          3 ≤ l.length ∧ l.length ≤ 5) := by
  intro hclaim
  have h := hclaim cxLlm samplePrefs cxAlready [sampleRec "Solaris".toList] (by rfl)
  have h3 : (3 : Nat) ≤ 1 := h.1
  omega

set_option maxRecDepth 100000 in
/-- C1 (witness for the amended claim): the same concrete run, which
succeeds with exactly one recommendation. -/
theorem C1_success_cardinality_amended_witness :
    1 ≤ [sampleRec "Solaris".toList].length ∧ [sampleRec "Solaris".toList].length ≤ 5 :=
  C1_success_cardinality_amended cxLlm samplePrefs cxAlready _ (by rfl)

/-- C9: with a stub model that always produces non-empty unparseable
text, the CLI orchestrator makes exactly `MAX_RETRIES = 3` model
invocations and then reports exhaustion (`none`, no partial data). -/
theorem C9_bounded_attempts (llm : Nat → Option (List Char)) (prefs : Prefs)
    (already : List (List Char))
    (hstub : ∀ i, 1 ≤ i → i ≤ MAX_RETRIES →
      ∃ raw, llm i = some raw ∧ raw ≠ [] ∧ parseLlmOutput raw = none) :
    generateRecommendations llm prefs already = (.ok none, 3) := by
  obtain ⟨r1, h1, -, p1⟩ := hstub 1 (by decide) (by decide)
  obtain ⟨r2, h2, -, p2⟩ := hstub 2 (by decide) (by decide)
  obtain ⟨r3, h3, -, p3⟩ := hstub 3 (by decide) (by decide)
  show cliGenGo llm prefs already [1, 2, 3] = (.ok none, 3)
  simp only [cliGenGo, h1, h2, h3, p1, p2, p3]
  norm_num [MAX_RETRIES]

def stubLlm : Nat → Option (List Char) := fun _ => some "unparseable!".toList

/-- C9 (witness): the concrete always-unparseable stub. -/
theorem C9_bounded_attempts_witness :
    generateRecommendations stubLlm samplePrefs [] = (.ok none, 3) :=
  C9_bounded_attempts stubLlm samplePrefs []
    (fun i _ _ => ⟨"unparseable!".toList, rfl, by decide, by rfl⟩)

/-! ## C10: CLI orchestrator vs scheduler orchestrator -/

theorem cli_sched_step (llm : Nat → Option (List Char)) (prefs : Prefs)
    (ex : List (List Char)) (a : Nat) (rest : List Nat)
    (hlt : a < MAX_RETRIES)
    (ih : (cliGenGo llm prefs ex rest).1 = schedGenGo llm prefs ex rest) :
    (cliGenGo llm prefs ex (a :: rest)).1 = schedGenGo llm prefs ex (a :: rest) := by
  unfold cliGenGo schedGenGo
  cases hllm : llm a with
  | none =>
    simp only [hllm, if_pos hlt]
    exact ih
  | some raw =>
    simp only [hllm]
    cases hp : parseLlmOutput raw with
    | none =>
      simp only [hp, if_pos hlt]
      exact ih
    | some parsed =>
      simp only [hp]
      cases hv : validateRecommendations parsed prefs with
      | error e => rfl
      | ok o =>
        cases o with
        | none =>
          dsimp only
          simp only [if_pos hlt]
          exact ih
        | some final =>
          dsimp only
          rw [filterDuplicates_eq_sched]
          by_cases hemp : (schedExcludeFilter final ex).isEmpty
          · simp only [hemp, if_true, if_pos hlt]
            exact ih
          · simp only [hemp, Bool.false_eq_true, if_false]

theorem cli_sched_last (llm : Nat → Option (List Char)) (prefs : Prefs)
    (ex : List (List Char)) (a : Nat) (hge : ¬ a < MAX_RETRIES) :
    (cliGenGo llm prefs ex [a]).1 = schedGenGo llm prefs ex [a] := by
  unfold cliGenGo schedGenGo
  cases hllm : llm a with
  | none => simp only [hllm, if_neg hge]; rfl
  | some raw =>
    simp only [hllm]
    cases hp : parseLlmOutput raw with
    | none => simp only [hp, if_neg hge]; rfl
    | some parsed =>
      simp only [hp]
      cases hv : validateRecommendations parsed prefs with
      | error e => rfl
      | ok o =>
        cases o with
        | none =>
          dsimp only
          simp only [if_neg hge]
          rfl
        | some final =>
          dsimp only
          rw [filterDuplicates_eq_sched]
          by_cases hemp : (schedExcludeFilter final ex).isEmpty
          · simp only [hemp, if_true, if_neg hge]
            rfl
          · simp only [hemp, Bool.false_eq_true, if_false]

/-- C10: for the same preferences, exclusion list, and per-attempt raw
model outputs, the CLI orchestrator and the scheduler orchestrator return
the same result (the same list, the same failure, or the same raised
error). -/
theorem C10_cli_sched_equivalent (llm : Nat → Option (List Char)) (prefs : Prefs)
    (ex : List (List Char)) :
    (generateRecommendations llm prefs ex).1 = generateForSubscriber llm prefs ex := by
  show (cliGenGo llm prefs ex [1, 2, 3]).1 = schedGenGo llm prefs ex [1, 2, 3]
  exact cli_sched_step llm prefs ex 1 [2, 3] (by decide)
    (cli_sched_step llm prefs ex 2 [3] (by decide)
      (cli_sched_last llm prefs ex 3 (by decide)))

/-! ## C3: fence tolerance of `parse_llm_output`

The key lemma is that wrapping any text in a ```` ```json ````/```` ``` ````
fence leaves the step-1 cleaning unchanged; everything downstream of the
cleaning is then literally the same computation. -/

theorem dropWhile_append_of_ne_nil {p : Char → Bool} {xs : List Char} (ys : List Char)
    (h : xs.dropWhile p ≠ []) : (xs ++ ys).dropWhile p = xs.dropWhile p ++ ys := by
  induction xs with
  | nil => exact absurd rfl h
  | cons a as ih =>
    by_cases hp : p a
    · rw [List.cons_append, List.dropWhile_cons_of_pos hp, List.dropWhile_cons_of_pos hp]
      rw [List.dropWhile_cons_of_pos hp] at h
      exact ih h
    · rw [List.cons_append, List.dropWhile_cons_of_neg hp, List.dropWhile_cons_of_neg hp,
        List.cons_append]

theorem dropWhile_append_of_all {p : Char → Bool} {xs : List Char} (ys : List Char)
    (h : xs.dropWhile p = []) : (xs ++ ys).dropWhile p = ys.dropWhile p := by
  induction xs with
  | nil => rfl
  | cons a as ih =>
    by_cases hp : p a
    · rw [List.cons_append, List.dropWhile_cons_of_pos hp]
      rw [List.dropWhile_cons_of_pos hp] at h
      exact ih h
    · rw [List.dropWhile_cons_of_neg hp] at h
      exact absurd h (by simp)

theorem isPyWs_ne_bt {c : Char} (h : isPyWs c = true) : c ≠ btChar := by
  unfold isPyWs at h
  simp only [Bool.decide_or, Bool.or_eq_true, decide_eq_true_eq] at h
  rcases h with h | h | h | h | h | h <;> subst h <;> decide

theorem nl_ne_bt : ('\n' : Char) ≠ btChar := by decide

/-- A non-backtick head is emitted unchanged by the first fence scanner. -/
theorem fenceSub1_cons_nonbt {c : Char} (s : List Char) (hc : c ≠ btChar) :
    fenceSub1 (c :: s) = c :: fenceSub1 s := by
  match s with
  | [] => rw [fenceSub1_one, fenceSub1_nil]
  | [c2] => rw [fenceSub1_two, fenceSub1_one]
  | c2 :: c3 :: rest =>
    rw [fenceSub1_cons]
    rw [if_neg (by intro hb; exact hc hb.1)]

/-- A non-backtick head is emitted unchanged by the second fence scanner. -/
theorem fenceSub2_cons_nonbt {c : Char} (s : List Char) (hc : c ≠ btChar) :
    fenceSub2 (c :: s) = c :: fenceSub2 s := by
  match s with
  | [] => rw [fenceSub2_one, fenceSub2_nil]
  | [c2] => rw [fenceSub2_two, fenceSub2_one]
  | c2 :: c3 :: rest =>
    rw [fenceSub2_cons]
    rw [if_neg (by intro hb; exact hc hb.1)]

/-- Leading whitespace passes through the first fence scanner. -/
theorem fenceSub1_ws_lead (ws : List Char) (hws : ∀ c ∈ ws, isPyWs c = true)
    (X : List Char) : fenceSub1 (ws ++ X) = ws ++ fenceSub1 X := by
  induction ws with
  | nil => rfl
  | cons a as ih =>
    rw [List.cons_append,
      fenceSub1_cons_nonbt _ (isPyWs_ne_bt (hws a (List.mem_cons_self a _))),
      ih (fun c hc => hws c (List.mem_cons_of_mem a hc)), List.cons_append]

/-- Leading whitespace passes through the second fence scanner. -/
theorem fenceSub2_ws_lead (ws : List Char) (hws : ∀ c ∈ ws, isPyWs c = true)
    (X : List Char) : fenceSub2 (ws ++ X) = ws ++ fenceSub2 X := by
  induction ws with
  | nil => rfl
  | cons a as ih =>
    rw [List.cons_append,
      fenceSub2_cons_nonbt _ (isPyWs_ne_bt (hws a (List.mem_cons_self a _))),
      ih (fun c hc => hws c (List.mem_cons_of_mem a hc)), List.cons_append]

/-- Leading whitespace is removed by `strip`. -/
theorem pyStrip_ws_lead (ws : List Char) (hws : ∀ c ∈ ws, isPyWs c = true)
    (X : List Char) : pyStrip (ws ++ X) = pyStrip X := by
  unfold pyStrip
  congr 2
  induction ws with
  | nil => rfl
  | cons a as ih =>
    rw [List.cons_append, List.dropWhile_cons_of_pos (hws a (List.mem_cons_self a _))]
    exact ih (fun c hc => hws c (List.mem_cons_of_mem a hc))

/-- A trailing whitespace character is removed by `strip`. -/
theorem pyStrip_append_ws (Z : List Char) {c : Char} (hc : isPyWs c = true) :
    pyStrip (Z ++ [c]) = pyStrip Z := by
  unfold pyStrip
  cases hz : Z.dropWhile isPyWs with
  | nil =>
    rw [dropWhile_append_of_all _ hz]
    simp [hc]
  | cons b bs =>
    rw [dropWhile_append_of_ne_nil _ (by rw [hz]; simp)]
    rw [hz, List.reverse_append]
    simp only [List.reverse_cons, List.reverse_nil, List.nil_append, List.singleton_append]
    rw [List.dropWhile_cons_of_pos hc]

/-- `dropJsonWord` in terms of `isPrefixOf`. -/
theorem dropJsonWord_eq (s : List Char) :
    dropJsonWord s = if (['j', 's', 'o', 'n'] : List Char).isPrefixOf s then s.drop 4 else s := by
  unfold dropJsonWord
  split
  · rename_i rest
    simp [List.isPrefixOf]
  · rename_i hne
    rw [if_neg]
    intro hpre
    have := List.isPrefixOf_iff_prefix.mp hpre
    obtain ⟨t, ht⟩ := this
    exact hne t ht.symm

/-- Appending text that starts with a newline does not change whether the
word `json` is an immediate prefix. -/
theorem isPrefixOf_json_append_nl (rest tail : List Char) :
    (['j', 's', 'o', 'n'] : List Char).isPrefixOf (rest ++ '\n' :: tail)
      = (['j', 's', 'o', 'n'] : List Char).isPrefixOf rest := by
  match rest with
  | [] => simp [List.isPrefixOf]
  | [a] => simp [List.isPrefixOf]
  | [a, b] => simp [List.isPrefixOf]
  | [a, b, c] => simp [List.isPrefixOf]
  | a :: b :: c :: d :: rr => simp [List.isPrefixOf]

theorem dropJsonWord_append_nl (rest tail : List Char) :
    dropJsonWord (rest ++ '\n' :: tail) = dropJsonWord rest ++ '\n' :: tail := by
  rw [dropJsonWord_eq, dropJsonWord_eq, isPrefixOf_json_append_nl]
  by_cases hp : (['j', 's', 'o', 'n'] : List Char).isPrefixOf rest
  · rw [if_pos hp, if_pos hp]
    have hlen : 4 ≤ rest.length := by
      have := List.isPrefixOf_iff_prefix.mp hp
      have := this.length_le
      simpa using this
    exact List.drop_append_of_le_length hlen
  · rw [if_neg hp, if_neg hp]

/-- The closing-fence text appended to the scanned string. -/
def fenceCloseL : List Char := '\n' :: btChar :: btChar :: [btChar]

theorem fenceSub1_fenceCloseL : fenceSub1 fenceCloseL = ['\n'] := by
  show fenceSub1 ('\n' :: btChar :: btChar :: [btChar]) = ['\n']
  rw [fenceSub1_cons_nonbt _ nl_ne_bt, fenceSub1_cons]
  rw [if_pos ⟨rfl, rfl, rfl⟩]
  rfl

/-- Suffix lemma: appending the closing fence to any text gives the same
first-scanner output, possibly with the fence's leading newline left
over at the very end. -/
theorem fenceSub1_append_close (n : Nat) :
    ∀ X : List Char, X.length ≤ n →
      fenceSub1 (X ++ fenceCloseL) = fenceSub1 X ∨
      fenceSub1 (X ++ fenceCloseL) = fenceSub1 X ++ ['\n'] := by
  induction n with
  | zero =>
    intro X hX
    match X, hX with
    | [], _ =>
      right
      rw [List.nil_append, fenceSub1_fenceCloseL, fenceSub1_nil, List.nil_append]
  | succ n ih =>
    intro X hX
    match X with
    | [] =>
      right
      rw [List.nil_append, fenceSub1_fenceCloseL, fenceSub1_nil, List.nil_append]
    | [c] =>
      right
      show fenceSub1 (c :: '\n' :: btChar :: btChar :: [btChar]) = fenceSub1 [c] ++ ['\n']
      by_cases hc : c = btChar
      · subst hc
        rw [fenceSub1_cons, if_neg (by intro hb; exact nl_ne_bt hb.2.1)]
        rw [fenceSub1_cons, if_neg (by intro hb; exact nl_ne_bt hb.1)]
        rw [fenceSub1_cons, if_pos ⟨rfl, rfl, rfl⟩]
        rfl
      · rw [fenceSub1_cons_nonbt _ hc]
        rw [show ('\n' :: btChar :: btChar :: [btChar]) = fenceCloseL from rfl,
          fenceSub1_fenceCloseL]
        rfl
    | [c1, c2] =>
      right
      show fenceSub1 (c1 :: c2 :: '\n' :: btChar :: btChar :: [btChar])
        = fenceSub1 [c1, c2] ++ ['\n']
      have h2 : fenceSub1 (c2 :: '\n' :: btChar :: btChar :: [btChar]) = c2 :: ['\n'] := by
        by_cases hc : c2 = btChar
        · subst hc
          rw [fenceSub1_cons, if_neg (by intro hb; exact nl_ne_bt hb.2.1)]
          rw [fenceSub1_cons, if_neg (by intro hb; exact nl_ne_bt hb.1)]
          rw [fenceSub1_cons, if_pos ⟨rfl, rfl, rfl⟩]
          rfl
        · rw [fenceSub1_cons_nonbt _ hc]
          rw [show ('\n' :: btChar :: btChar :: [btChar]) = fenceCloseL from rfl,
            fenceSub1_fenceCloseL]
      by_cases hc1 : c1 = btChar
      · subst hc1
        rw [fenceSub1_cons, if_neg (by intro hb; exact nl_ne_bt hb.2.2)]
        rw [h2, fenceSub1_two]
        rfl
      · rw [fenceSub1_cons_nonbt _ hc1, h2, fenceSub1_two]
        rfl
    | c1 :: c2 :: c3 :: rest =>
      show fenceSub1 (c1 :: c2 :: c3 :: (rest ++ fenceCloseL)) = _ ∨
        fenceSub1 (c1 :: c2 :: c3 :: (rest ++ fenceCloseL)) = _
      rw [fenceSub1_cons, fenceSub1_cons _ _ _ rest]
      by_cases hb : c1 = btChar ∧ c2 = btChar ∧ c3 = btChar
      · rw [if_pos hb, if_pos hb]
        rw [show rest ++ fenceCloseL = rest ++ '\n' :: (btChar :: btChar :: [btChar]) from rfl]
        rw [dropJsonWord_append_nl]
        cases hz : (dropJsonWord rest).dropWhile isPyWs with
        | nil =>
          left
          rw [dropWhile_append_of_all _ hz]
          rw [List.dropWhile_cons_of_pos (by decide)]
          rw [List.dropWhile_cons_of_neg
            (by simpa using (by decide : isPyWs btChar = false))]
          rfl
        | cons b bs =>
          rw [dropWhile_append_of_ne_nil _ (by rw [hz]; simp), hz]
          have h1 : ((dropJsonWord rest).dropWhile isPyWs).length ≤ rest.length :=
            Nat.le_trans (List.Sublist.length_le (List.dropWhile_sublist _))
              (dropJsonWord_length_le rest)
          rw [hz] at h1
          have hlen : (b :: bs).length ≤ n := by
            simp only [List.length_cons] at hX h1 ⊢
            omega
          have hres := ih (b :: bs) hlen
          rw [show (b :: bs) ++ fenceCloseL
            = b :: bs ++ '\n' :: (btChar :: btChar :: [btChar]) from rfl] at hres
          exact hres
      · rw [if_neg hb, if_neg hb]
        have hlen : (c2 :: c3 :: rest).length ≤ n := by
          simp only [List.length_cons] at hX ⊢
          omega
        have hres := ih (c2 :: c3 :: rest) hlen
        simp only [List.cons_append] at hres
        cases hres with
        | inl h =>
          left
          rw [h]
        | inr h =>
          right
          simp only [List.cons_append]
          rw [h]

/-- A single trailing non-backtick character passes through the second
fence scanner. -/
theorem fenceSub2_append_single (n : Nat) :
    ∀ X : List Char, X.length ≤ n → ∀ c : Char, c ≠ btChar →
      fenceSub2 (X ++ [c]) = fenceSub2 X ++ [c] := by
  induction n with
  | zero =>
    intro X hX c hc
    match X, hX with
    | [], _ => rw [List.nil_append, fenceSub2_nil, fenceSub2_one, List.nil_append]
  | succ n ih =>
    intro X hX c hc
    match X with
    | [] => rw [List.nil_append, fenceSub2_nil, fenceSub2_one, List.nil_append]
    | [c1] =>
      show fenceSub2 [c1, c] = fenceSub2 [c1] ++ [c]
      rw [fenceSub2_two, fenceSub2_one]
      rfl
    | [c1, c2] =>
      show fenceSub2 (c1 :: c2 :: [c]) = fenceSub2 [c1, c2] ++ [c]
      rw [fenceSub2_cons, if_neg (by intro hb; exact hc hb.2.2), fenceSub2_two,
        fenceSub2_two]
      rfl
    | c1 :: c2 :: c3 :: rest =>
      show fenceSub2 (c1 :: c2 :: c3 :: (rest ++ [c])) = _
      rw [fenceSub2_cons, fenceSub2_cons _ _ _ rest]
      by_cases hb : c1 = btChar ∧ c2 = btChar ∧ c3 = btChar
      · rw [if_pos hb, if_pos hb]
        exact ih rest (by simp only [List.length_cons] at hX; omega) c hc
      · rw [if_neg hb, if_neg hb]
        have := ih (c2 :: c3 :: rest)
          (by simp only [List.length_cons] at hX ⊢; omega) c hc
        simp only [List.cons_append] at this
        rw [this]
        rfl

/-- The opening-fence text `"```json\n"`. -/
def fenceOpenL : List Char :=
  btChar :: btChar :: btChar :: 'j' :: 's' :: 'o' :: 'n' :: ['\n']

/-- The first scanner swallows the opening fence together with any
following whitespace. -/
theorem fenceSub1_open_lead (J : List Char) :
    fenceSub1 (fenceOpenL ++ J) = fenceSub1 (J.dropWhile isPyWs) := by
  show fenceSub1 (btChar :: btChar :: btChar :: ('j' :: 's' :: 'o' :: 'n' :: '\n' :: J)) = _
  rw [fenceSub1_cons, if_pos ⟨rfl, rfl, rfl⟩]
  rw [show dropJsonWord ('j' :: 's' :: 'o' :: 'n' :: '\n' :: J) = '\n' :: J from rfl]
  rw [List.dropWhile_cons_of_pos (by decide)]

theorem fenceSub1_bt3 : fenceSub1 (btChar :: btChar :: [btChar]) = [] := rfl

theorem takeWhile_all_ws (J : List Char) :
    ∀ c ∈ J.takeWhile isPyWs, isPyWs c = true := fun _ hc => List.mem_takeWhile_imp hc

/-- Wrapping any text in the markdown fence leaves the cleaned text
unchanged. -/
theorem cleanText_fence_wrap (J : List Char) :
    cleanText (fenceOpenL ++ J ++ fenceCloseL) = cleanText J := by
  unfold cleanText
  rw [List.append_assoc, fenceSub1_open_lead]
  cases hJd : J.dropWhile isPyWs with
  | nil =>
    rw [dropWhile_append_of_all _ hJd]
    rw [show fenceCloseL.dropWhile isPyWs = btChar :: btChar :: [btChar] from rfl]
    rw [fenceSub1_bt3]
    have hJall : ∀ c ∈ J, isPyWs c = true := by
      intro c hc
      have hsplit := List.takeWhile_append_dropWhile isPyWs J
      rw [hJd, List.append_nil] at hsplit
      rw [← hsplit] at hc
      exact List.mem_takeWhile_imp hc
    have h1 : fenceSub1 J = J := by
      have := fenceSub1_ws_lead J hJall []
      rw [List.append_nil, fenceSub1_nil, List.append_nil] at this
      exact this
    have h2 : fenceSub2 J = J := by
      have := fenceSub2_ws_lead J hJall []
      rw [List.append_nil, fenceSub2_nil, List.append_nil] at this
      exact this
    rw [h1, h2]
    rw [show fenceSub2 [] = [] from rfl]
    unfold pyStrip
    rw [hJd]
    rfl
  | cons d JD =>
    rw [dropWhile_append_of_ne_nil _ (by rw [hJd]; simp), hJd]
    have hRHS : pyStrip (fenceSub2 (fenceSub1 J))
        = pyStrip (fenceSub2 (fenceSub1 (d :: JD))) := by
      conv_lhs =>
        rw [← List.takeWhile_append_dropWhile isPyWs J, hJd]
      rw [fenceSub1_ws_lead _ (takeWhile_all_ws J), fenceSub2_ws_lead _ (takeWhile_all_ws J),
        pyStrip_ws_lead _ (takeWhile_all_ws J)]
    rw [hRHS]
    cases fenceSub1_append_close (d :: JD).length (d :: JD) (Nat.le_refl _) with
    | inl h =>
      rw [h]
    | inr h =>
      rw [h]
      rw [fenceSub2_append_single (fenceSub1 (d :: JD)).length _ (Nat.le_refl _) '\n' nl_ne_bt]
      rw [pyStrip_append_ws _ (by decide)]

/-- C3: for every string `J` that is a valid JSON object,
`parse_llm_output` on `J` wrapped in a ```` ```json ````-fenced block
returns the same result as on `J` alone (the fence wrap does not even
change the cleaned text, for arbitrary `J`). -/
theorem C3_fence_tolerance (J : List Char)
    (hJ : ∃ d : PyDict, jsonLoads J = some (PyVal.vDict d)) :
    parseLlmOutput (fenceOpenL ++ J ++ fenceCloseL) = parseLlmOutput J := by
  unfold parseLlmOutput
  rw [cleanText_fence_wrap]

def jW : List Char := "\x7b\"a\": 1\x7d".toList

/-- C3 (witness): the fence-wrap equality at a concrete JSON object. -/
theorem C3_fence_tolerance_witness :
    jsonLoads jW = some (PyVal.vDict [("a".toList, PyVal.vInt 1)]) ∧
    parseLlmOutput (fenceOpenL ++ jW ++ fenceCloseL) = parseLlmOutput jW :=
  ⟨rfl, C3_fence_tolerance jW ⟨[("a".toList, PyVal.vInt 1)], rfl⟩⟩

/-! ## C4: brace extraction

Setting: `P ++ J ++ S` with `P`, `S` free of braces and `J` a valid JSON
object.  The fence scanners split around the brace-delimited core of `J`
(no fence match can cross a `{` or `}` because matches consist only of
backticks, the letters of `json`, and whitespace); the cleaned text is
then `A ++ core ++ B` with `A`, `B` brace-free, whose brace span is
exactly the cleaned core. -/

/-- No brace occurs in the text. -/
def braceFree (s : List Char) : Prop := ∀ c ∈ s, c ≠ '{' ∧ c ≠ '}'

theorem braceFree_append {A B : List Char} (hA : braceFree A) (hB : braceFree B) :
    braceFree (A ++ B) := by
  intro c hc
  rcases List.mem_append.mp hc with h | h
  · exact hA c h
  · exact hB c h

theorem braceFree_of_ws {A : List Char} (hA : ∀ c ∈ A, isPyWs c = true) : braceFree A := by
  intro c hc
  have := hA c hc
  unfold isPyWs at this
  simp only [Bool.decide_or, Bool.or_eq_true, decide_eq_true_eq] at this
  rcases this with h | h | h | h | h | h <;> subst h <;> exact ⟨by decide, by decide⟩

theorem dropJsonWord_sublist (s : List Char) : (dropJsonWord s).Sublist s := by
  unfold dropJsonWord
  split
  · rename_i rest
    refine List.Sublist.trans ?_ (List.sublist_cons_self _ _)
    refine List.Sublist.trans ?_ (List.sublist_cons_self _ _)
    refine List.Sublist.trans ?_ (List.sublist_cons_self _ _)
    exact List.sublist_cons_self _ _
  · exact List.Sublist.refl _

theorem fenceSub1_sublist (n : Nat) :
    ∀ s : List Char, s.length ≤ n → (fenceSub1 s).Sublist s := by
  induction n with
  | zero =>
    intro s hs
    match s, hs with
    | [], _ => exact List.Sublist.refl _
  | succ n ih =>
    intro s hs
    match s with
    | [] => exact List.Sublist.refl _
    | [c] => exact List.Sublist.refl _
    | [c1, c2] =>
      rw [fenceSub1_two]
    | c1 :: c2 :: c3 :: rest =>
      rw [fenceSub1_cons]
      by_cases hb : c1 = btChar ∧ c2 = btChar ∧ c3 = btChar
      · rw [if_pos hb]
        have hlen : ((dropJsonWord rest).dropWhile isPyWs).length ≤ n := by
          have h0 : ((dropJsonWord rest).dropWhile isPyWs).length ≤ (dropJsonWord rest).length :=
            List.Sublist.length_le (List.dropWhile_sublist _)
          have h1 := dropJsonWord_length_le rest
          simp only [List.length_cons] at hs
          omega
        have hrest : rest.Sublist (c1 :: c2 :: c3 :: rest) :=
          ((List.sublist_cons_self c3 rest).trans
            (List.sublist_cons_self c2 (c3 :: rest))).trans
            (List.sublist_cons_self c1 (c2 :: c3 :: rest))
        exact ((ih _ hlen).trans
          ((List.dropWhile_sublist _).trans (dropJsonWord_sublist rest))).trans hrest
      · rw [if_neg hb]
        refine List.Sublist.cons₂ c1 ?_
        exact ih (c2 :: c3 :: rest) (by simp only [List.length_cons] at hs ⊢; omega)

theorem fenceSub2_sublist (n : Nat) :
    ∀ s : List Char, s.length ≤ n → (fenceSub2 s).Sublist s := by
  induction n with
  | zero =>
    intro s hs
    match s, hs with
    | [], _ => exact List.Sublist.refl _
  | succ n ih =>
    intro s hs
    match s with
    | [] => exact List.Sublist.refl _
    | [c] => exact List.Sublist.refl _
    | [c1, c2] =>
      rw [fenceSub2_two]
    | c1 :: c2 :: c3 :: rest =>
      rw [fenceSub2_cons]
      by_cases hb : c1 = btChar ∧ c2 = btChar ∧ c3 = btChar
      · rw [if_pos hb]
        have hlen : rest.length ≤ n := by
          simp only [List.length_cons] at hs
          omega
        have hrest : rest.Sublist (c1 :: c2 :: c3 :: rest) :=
          ((List.sublist_cons_self c3 rest).trans
            (List.sublist_cons_self c2 (c3 :: rest))).trans
            (List.sublist_cons_self c1 (c2 :: c3 :: rest))
        exact (ih _ hlen).trans hrest
      · rw [if_neg hb]
        refine List.Sublist.cons₂ c1 ?_
        exact ih (c2 :: c3 :: rest) (by simp only [List.length_cons] at hs ⊢; omega)

theorem braceFree_fenceSub1 {s : List Char} (h : braceFree s) : braceFree (fenceSub1 s) :=
  fun c hc => h c ((fenceSub1_sublist s.length s (Nat.le_refl _)).mem hc)

theorem braceFree_fenceSub2 {s : List Char} (h : braceFree s) : braceFree (fenceSub2 s) :=
  fun c hc => h c ((fenceSub2_sublist s.length s (Nat.le_refl _)).mem hc)

theorem getLast?_cons_of_ne_nil (a : Char) {l : List Char} (h : l ≠ []) :
    (a :: l).getLast? = l.getLast? := by
  cases l with
  | nil => exact absurd rfl h
  | cons b bs => simp [List.getLast?_cons_cons]

theorem dropWhile_eq_nil_imp (p : Char → Bool) (l : List Char) (h : l.dropWhile p = []) :
    ∀ c ∈ l, p c = true := by
  induction l with
  | nil => intro c hc; cases hc
  | cons a as ih =>
    by_cases hp : p a
    · rw [List.dropWhile_cons_of_pos hp] at h
      intro c hc
      rcases List.mem_cons.mp hc with rfl | hc
      · exact hp
      · exact ih h c hc
    · rw [List.dropWhile_cons_of_neg hp] at h
      cases h

theorem dropWhile_ne_nil_of_getLast {p : Char → Bool} {l : List Char} {c : Char}
    (hl : l.getLast? = some c) (hc : p c = false) : l.dropWhile p ≠ [] := by
  intro hnil
  obtain ⟨ys, rfl⟩ := List.getLast?_eq_some_iff.mp hl
  have := dropWhile_eq_nil_imp p _ hnil c (by simp)
  rw [this] at hc
  cases hc

theorem getLast?_dropWhile (p : Char → Bool) (l : List Char)
    (h : l.dropWhile p ≠ []) : (l.dropWhile p).getLast? = l.getLast? := by
  conv_rhs => rw [← List.takeWhile_append_dropWhile p l]
  rw [List.getLast?_append]
  cases hd : (l.dropWhile p).getLast? with
  | none =>
    rw [List.getLast?_eq_none_iff] at hd
    exact absurd hd h
  | some c => rfl

/-- The characters a fence match can contain never include a brace. -/
theorem brace_props {b : Char} (hb : b = '{' ∨ b = '}') :
    b ≠ btChar ∧ b ≠ 'j' ∧ b ≠ 's' ∧ b ≠ 'o' ∧ b ≠ 'n' ∧ isPyWs b = false := by
  rcases hb with rfl | rfl
  · exact ⟨by decide, by decide, by decide, by decide, by decide, by decide⟩
  · exact ⟨by decide, by decide, by decide, by decide, by decide, by decide⟩

/-- Whether `json` is an immediate prefix is unaffected by text appended
after a character that occurs nowhere in `json`. -/
theorem isPrefixOf_json_append_gen (rest tail : List Char) (b : Char)
    (h1 : b ≠ 'j') (h2 : b ≠ 's') (h3 : b ≠ 'o') (h4 : b ≠ 'n') :
    (['j', 's', 'o', 'n'] : List Char).isPrefixOf (rest ++ b :: tail)
      = (['j', 's', 'o', 'n'] : List Char).isPrefixOf rest := by
  match rest with
  | [] => simp [List.isPrefixOf, beq_eq_false_iff_ne.mpr (Ne.symm h1)]
  | [a] => simp [List.isPrefixOf, beq_eq_false_iff_ne.mpr (Ne.symm h2)]
  | [a, a2] => simp [List.isPrefixOf, beq_eq_false_iff_ne.mpr (Ne.symm h3)]
  | [a, a2, a3] => simp [List.isPrefixOf, beq_eq_false_iff_ne.mpr (Ne.symm h4)]
  | a :: a2 :: a3 :: a4 :: rr => simp [List.isPrefixOf]

theorem dropJsonWord_append_gen (rest tail : List Char) (b : Char)
    (h1 : b ≠ 'j') (h2 : b ≠ 's') (h3 : b ≠ 'o') (h4 : b ≠ 'n') :
    dropJsonWord (rest ++ b :: tail) = dropJsonWord rest ++ b :: tail := by
  rw [dropJsonWord_eq, dropJsonWord_eq, isPrefixOf_json_append_gen rest tail b h1 h2 h3 h4]
  by_cases hp : (['j', 's', 'o', 'n'] : List Char).isPrefixOf rest
  · rw [if_pos hp, if_pos hp]
    have hlen : 4 ≤ rest.length := by
      have := ( List.isPrefixOf_iff_prefix.mp hp).length_le
      simpa using this
    exact List.drop_append_of_le_length hlen
  · rw [if_neg hp, if_neg hp]

/-- `dropJsonWord` preserves a trailing `}`. -/
theorem dropJsonWord_rbLast (ys : List Char) :
    dropJsonWord (ys ++ ['}']) = dropJsonWord ys ++ ['}'] :=
  dropJsonWord_append_gen ys [] '}' (by decide) (by decide) (by decide) (by decide)

/-- No fence match crosses into text that starts with a brace: the first
scanner distributes over such an append. -/
theorem fenceSub1_split_braceHead (n : Nat) :
    ∀ A : List Char, A.length ≤ n → ∀ (b : Char) (B' : List Char), (b = '{' ∨ b = '}') →
      fenceSub1 (A ++ b :: B') = fenceSub1 A ++ fenceSub1 (b :: B') := by
  induction n with
  | zero =>
    intro A hA b B' hb
    match A, hA with
    | [], _ => rw [List.nil_append, fenceSub1_nil, List.nil_append]
  | succ n ih =>
    intro A hA b B' hb
    obtain ⟨hbt, hj, hs2, ho, hn2, hws⟩ := brace_props hb
    match A with
    | [] => rw [List.nil_append, fenceSub1_nil, List.nil_append]
    | [c] =>
      show fenceSub1 (c :: b :: B') = fenceSub1 [c] ++ fenceSub1 (b :: B')
      match B' with
      | [] =>
        rw [fenceSub1_two, fenceSub1_one, fenceSub1_one]
        rfl
      | b2 :: B2 =>
        rw [fenceSub1_cons, if_neg (fun hh => hbt hh.2.1), fenceSub1_one]
        rfl
    | [c1, c2] =>
      show fenceSub1 (c1 :: c2 :: b :: B') = fenceSub1 [c1, c2] ++ fenceSub1 (b :: B')
      rw [fenceSub1_cons, if_neg (fun hh => hbt hh.2.2)]
      have hrec := ih [c2] (by simp only [List.length_cons, List.length_nil] at hA ⊢; omega) b B' hb
      rw [List.singleton_append, fenceSub1_one] at hrec
      rw [hrec, fenceSub1_two]
      rfl
    | c1 :: c2 :: c3 :: rest =>
      show fenceSub1 (c1 :: c2 :: c3 :: (rest ++ b :: B'))
        = fenceSub1 (c1 :: c2 :: c3 :: rest) ++ fenceSub1 (b :: B')
      rw [fenceSub1_cons, fenceSub1_cons _ _ _ rest]
      by_cases hb3 : c1 = btChar ∧ c2 = btChar ∧ c3 = btChar
      · rw [if_pos hb3, if_pos hb3]
        rw [dropJsonWord_append_gen rest _ b hj hs2 ho hn2]
        cases hz : (dropJsonWord rest).dropWhile isPyWs with
        | nil =>
          rw [dropWhile_append_of_all _ hz]
          rw [List.dropWhile_cons_of_neg (by simp [hws]), fenceSub1_nil, List.nil_append]
        | cons d ds =>
          rw [dropWhile_append_of_ne_nil _ (by rw [hz]; simp), hz]
          have h0 : ((dropJsonWord rest).dropWhile isPyWs).length ≤ (dropJsonWord rest).length :=
            List.Sublist.length_le (List.dropWhile_sublist _)
          have h1 := dropJsonWord_length_le rest
          rw [hz] at h0
          have hlen : (d :: ds).length ≤ n := by
            simp only [List.length_cons] at hA h0 ⊢
            omega
          exact ih (d :: ds) hlen b B' hb
      · rw [if_neg hb3, if_neg hb3]
        have hrec := ih (c2 :: c3 :: rest)
          (by simp only [List.length_cons] at hA ⊢; omega) b B' hb
        simp only [List.cons_append] at hrec
        rw [hrec]
        rfl

/-- No fence match crosses out of text that ends with `}`: the first
scanner distributes over such an append. -/
theorem fenceSub1_split_rbLast (n : Nat) :
    ∀ A : List Char, A.length ≤ n → A.getLast? = some '}' → ∀ B : List Char,
      fenceSub1 (A ++ B) = fenceSub1 A ++ fenceSub1 B := by
  induction n with
  | zero =>
    intro A hA hlast B
    match A, hA with
    | [], _ => cases hlast
  | succ n ih =>
    intro A hA hlast B
    match A with
    | [] => cases hlast
    | [c] =>
      have hc : c = '}' := by simpa using hlast
      subst hc
      rw [List.singleton_append, fenceSub1_cons_nonbt _ (by decide), fenceSub1_one]
      rfl
    | [c1, c2] =>
      have hc : c2 = '}' := by simpa using hlast
      subst hc
      match B with
      | [] => rw [List.append_nil, fenceSub1_nil, List.append_nil]
      | b0 :: B0 =>
        show fenceSub1 (c1 :: '}' :: b0 :: B0) = fenceSub1 [c1, '}'] ++ fenceSub1 (b0 :: B0)
        rw [fenceSub1_cons, if_neg (fun hh => absurd hh.2.1 (by decide)),
          fenceSub1_cons_nonbt _ (by decide), fenceSub1_two]
        rfl
    | c1 :: c2 :: c3 :: rest =>
      cases hrest : rest with
      | nil =>
        subst hrest
        have hc : c3 = '}' := by simpa using hlast
        subst hc
        show fenceSub1 (c1 :: c2 :: '}' :: B) = fenceSub1 [c1, c2, '}'] ++ fenceSub1 B
        match B with
        | [] => rw [fenceSub1_nil, List.append_nil]
        | b0 :: B0 =>
          rw [fenceSub1_cons, if_neg (fun hh => absurd hh.2.2 (by decide))]
          have hrec := ih [c2, '}'] (by simp only [List.length_cons] at hA ⊢; omega)
            (by simp) (b0 :: B0)
          simp only [List.cons_append, List.nil_append] at hrec
          rw [hrec]
          rw [fenceSub1_cons _ _ _ ([] : List Char),
            if_neg (fun hh => absurd hh.2.2 (by decide))]
          rfl
      | cons r0 rs =>
        have hlast2 : rest.getLast? = some '}' := by
          rw [hrest]
          rw [hrest] at hlast
          have h1 : (c1 :: c2 :: c3 :: r0 :: rs).getLast? = (c3 :: r0 :: rs).getLast? := by
            simp [List.getLast?_cons_cons]
          have h2 : (c3 :: r0 :: rs).getLast? = (r0 :: rs).getLast? := by
            simp [List.getLast?_cons_cons]
          rw [h1, h2] at hlast
          exact hlast
        rw [← hrest]
        have hrestne : rest ≠ [] := by rw [hrest]; simp
        show fenceSub1 (c1 :: c2 :: c3 :: (rest ++ B))
          = fenceSub1 (c1 :: c2 :: c3 :: rest) ++ fenceSub1 B
        rw [fenceSub1_cons, fenceSub1_cons _ _ _ rest]
        by_cases hb3 : c1 = btChar ∧ c2 = btChar ∧ c3 = btChar
        · rw [if_pos hb3, if_pos hb3]
          obtain ⟨ys, hys⟩ := List.getLast?_eq_some_iff.mp hlast2
          have hdj : dropJsonWord (rest ++ B) = dropJsonWord rest ++ B := by
            rw [hys, List.append_assoc, List.singleton_append,
              dropJsonWord_append_gen ys _ '}' (by decide) (by decide) (by decide) (by decide),
              dropJsonWord_rbLast, List.append_assoc, List.singleton_append]
          rw [hdj]
          have hdjlast : (dropJsonWord rest).getLast? = some '}' := by
            rw [hys, dropJsonWord_rbLast]
            simp
          have hdw_ne : (dropJsonWord rest).dropWhile isPyWs ≠ [] :=
            dropWhile_ne_nil_of_getLast hdjlast (by decide)
          rw [dropWhile_append_of_ne_nil _ hdw_ne]
          have hdwlast : ((dropJsonWord rest).dropWhile isPyWs).getLast? = some '}' := by
            rw [getLast?_dropWhile _ _ hdw_ne]
            exact hdjlast
          have h0 : ((dropJsonWord rest).dropWhile isPyWs).length ≤ (dropJsonWord rest).length :=
            List.Sublist.length_le (List.dropWhile_sublist _)
          have h1 := dropJsonWord_length_le rest
          have hlen : ((dropJsonWord rest).dropWhile isPyWs).length ≤ n := by
            simp only [List.length_cons] at hA
            omega
          exact ih _ hlen hdwlast B
        · rw [if_neg hb3, if_neg hb3]
          have hlast3 : (c2 :: c3 :: rest).getLast? = some '}' := by
            rw [getLast?_cons_of_ne_nil _ (by simp), getLast?_cons_of_ne_nil _ hrestne]
            exact hlast2
          have hrec := ih (c2 :: c3 :: rest)
            (by simp only [List.length_cons] at hA ⊢; omega) hlast3 B
          simp only [List.cons_append] at hrec
          rw [hrec]
          rfl

/-- Brace-head split for the second scanner. -/
theorem fenceSub2_split_braceHead (n : Nat) :
    ∀ A : List Char, A.length ≤ n → ∀ (b : Char) (B' : List Char), (b = '{' ∨ b = '}') →
      fenceSub2 (A ++ b :: B') = fenceSub2 A ++ fenceSub2 (b :: B') := by
  induction n with
  | zero =>
    intro A hA b B' hb
    match A, hA with
    | [], _ => rw [List.nil_append, fenceSub2_nil, List.nil_append]
  | succ n ih =>
    intro A hA b B' hb
    obtain ⟨hbt, -, -, -, -, -⟩ := brace_props hb
    match A with
    | [] => rw [List.nil_append, fenceSub2_nil, List.nil_append]
    | [c] =>
      show fenceSub2 (c :: b :: B') = fenceSub2 [c] ++ fenceSub2 (b :: B')
      match B' with
      | [] =>
        rw [fenceSub2_two, fenceSub2_one, fenceSub2_one]
        rfl
      | b2 :: B2 =>
        rw [fenceSub2_cons, if_neg (fun hh => hbt hh.2.1), fenceSub2_one]
        rfl
    | [c1, c2] =>
      show fenceSub2 (c1 :: c2 :: b :: B') = fenceSub2 [c1, c2] ++ fenceSub2 (b :: B')
      rw [fenceSub2_cons, if_neg (fun hh => hbt hh.2.2)]
      have hrec := ih [c2] (by simp only [List.length_cons, List.length_nil] at hA ⊢; omega) b B' hb
      rw [List.singleton_append, fenceSub2_one] at hrec
      rw [hrec, fenceSub2_two]
      rfl
    | c1 :: c2 :: c3 :: rest =>
      show fenceSub2 (c1 :: c2 :: c3 :: (rest ++ b :: B'))
        = fenceSub2 (c1 :: c2 :: c3 :: rest) ++ fenceSub2 (b :: B')
      rw [fenceSub2_cons, fenceSub2_cons _ _ _ rest]
      by_cases hb3 : c1 = btChar ∧ c2 = btChar ∧ c3 = btChar
      · rw [if_pos hb3, if_pos hb3]
        exact ih rest (by simp only [List.length_cons] at hA; omega) b B' hb
      · rw [if_neg hb3, if_neg hb3]
        have hrec := ih (c2 :: c3 :: rest)
          (by simp only [List.length_cons] at hA ⊢; omega) b B' hb
        simp only [List.cons_append] at hrec
        rw [hrec]
        rfl

/-- Trailing-`}` split for the second scanner. -/
theorem fenceSub2_split_rbLast (n : Nat) :
    ∀ A : List Char, A.length ≤ n → A.getLast? = some '}' → ∀ B : List Char,
      fenceSub2 (A ++ B) = fenceSub2 A ++ fenceSub2 B := by
  induction n with
  | zero =>
    intro A hA hlast B
    match A, hA with
    | [], _ => cases hlast
  | succ n ih =>
    intro A hA hlast B
    match A with
    | [] => cases hlast
    | [c] =>
      have hc : c = '}' := by simpa using hlast
      subst hc
      rw [List.singleton_append, fenceSub2_cons_nonbt _ (by decide), fenceSub2_one]
      rfl
    | [c1, c2] =>
      have hc : c2 = '}' := by simpa using hlast
      subst hc
      match B with
      | [] => rw [List.append_nil, fenceSub2_nil, List.append_nil]
      | b0 :: B0 =>
        show fenceSub2 (c1 :: '}' :: b0 :: B0) = fenceSub2 [c1, '}'] ++ fenceSub2 (b0 :: B0)
        rw [fenceSub2_cons, if_neg (fun hh => absurd hh.2.1 (by decide)),
          fenceSub2_cons_nonbt _ (by decide), fenceSub2_two]
        rfl
    | c1 :: c2 :: c3 :: rest =>
      cases hrest : rest with
      | nil =>
        subst hrest
        have hc : c3 = '}' := by simpa using hlast
        subst hc
        show fenceSub2 (c1 :: c2 :: '}' :: B) = fenceSub2 [c1, c2, '}'] ++ fenceSub2 B
        match B with
        | [] => rw [fenceSub2_nil, List.append_nil]
        | b0 :: B0 =>
          rw [fenceSub2_cons, if_neg (fun hh => absurd hh.2.2 (by decide))]
          have hrec := ih [c2, '}'] (by simp only [List.length_cons] at hA ⊢; omega)
            (by simp) (b0 :: B0)
          simp only [List.cons_append, List.nil_append] at hrec
          rw [hrec]
          rw [fenceSub2_cons _ _ _ ([] : List Char),
            if_neg (fun hh => absurd hh.2.2 (by decide))]
          rfl
      | cons r0 rs =>
        have hlast2 : rest.getLast? = some '}' := by
          rw [hrest]
          rw [hrest] at hlast
          have h1 : (c1 :: c2 :: c3 :: r0 :: rs).getLast? = (c3 :: r0 :: rs).getLast? := by
            simp [List.getLast?_cons_cons]
          have h2 : (c3 :: r0 :: rs).getLast? = (r0 :: rs).getLast? := by
            simp [List.getLast?_cons_cons]
          rw [h1, h2] at hlast
          exact hlast
        rw [← hrest]
        have hrestne : rest ≠ [] := by rw [hrest]; simp
        show fenceSub2 (c1 :: c2 :: c3 :: (rest ++ B))
          = fenceSub2 (c1 :: c2 :: c3 :: rest) ++ fenceSub2 B
        rw [fenceSub2_cons, fenceSub2_cons _ _ _ rest]
        by_cases hb3 : c1 = btChar ∧ c2 = btChar ∧ c3 = btChar
        · rw [if_pos hb3, if_pos hb3]
          exact ih rest (by simp only [List.length_cons] at hA; omega) hlast2 B
        · rw [if_neg hb3, if_neg hb3]
          have hlast3 : (c2 :: c3 :: rest).getLast? = some '}' := by
            rw [getLast?_cons_of_ne_nil _ (by simp), getLast?_cons_of_ne_nil _ hrestne]
            exact hlast2
          have hrec := ih (c2 :: c3 :: rest)
            (by simp only [List.length_cons] at hA ⊢; omega) hlast3 B
          simp only [List.cons_append] at hrec
          rw [hrec]
          rfl

theorem dropWhile_head_not {l res : List Char} (h : l.dropWhile isPyWs = res)
    {a : Char} (ha : res.head? = some a) : isPyWs a = false := by
  have := List.head?_dropWhile_not isPyWs l
  rw [h, ha] at this
  exact this

/-- Stripping around a brace-delimited core: `strip (A ++ C ++ B)` keeps
`C` intact, trims `A` to a suffix starting non-whitespace and `B` to a
prefix ending non-whitespace. -/
theorem pyStrip_mid (A C B : List Char)
    (hH : C.head? = some '{') (hL : C.getLast? = some '}') :
    ∃ A3 B3, pyStrip (A ++ C ++ B) = A3 ++ C ++ B3
      ∧ (∀ c ∈ A3, c ∈ A) ∧ (∀ c ∈ B3, c ∈ B)
      ∧ (A3 = [] ∨ ∃ a, A3.head? = some a ∧ isPyWs a = false)
      ∧ (B3 = [] ∨ ∃ b, B3.getLast? = some b ∧ isPyWs b = false) := by
  obtain ⟨Ct, hC⟩ : ∃ Ct, C = '{' :: Ct := by
    cases C with
    | nil => cases hH
    | cons c0 Ct =>
      have hc0 : c0 = '{' := by simpa using hH
      exact ⟨Ct, by rw [hc0]⟩
  have hstage1 : ∃ A1, (A ++ C ++ B).dropWhile isPyWs = A1 ++ C ++ B
      ∧ (∀ c ∈ A1, c ∈ A)
      ∧ (A1 = [] ∨ ∃ a, A1.head? = some a ∧ isPyWs a = false) := by
    rw [List.append_assoc]
    cases hA : A.dropWhile isPyWs with
    | nil =>
      refine ⟨[], ?_, ?_, Or.inl rfl⟩
      · rw [dropWhile_append_of_all _ hA, hC,
          List.cons_append, List.dropWhile_cons_of_neg (by decide)]
        simp [List.append_assoc]
      · intro c hc
        cases hc
    | cons a as =>
      refine ⟨a :: as, ?_, ?_, Or.inr ⟨a, rfl, dropWhile_head_not hA rfl⟩⟩
      · rw [dropWhile_append_of_ne_nil _ (by rw [hA]; simp), hA, List.append_assoc]
      · intro c hc
        exact (List.dropWhile_sublist isPyWs).mem (hA ▸ hc)
  obtain ⟨A1, h1, hA1mem, hA1head⟩ := hstage1
  have hCrev : C.reverse.head? = some '}' := by
    rw [List.head?_reverse]
    exact hL
  obtain ⟨c0, Cr, hCr⟩ : ∃ c0 Cr, C.reverse = c0 :: Cr := by
    cases hcr : C.reverse with
    | nil => rw [hcr] at hCrev; cases hCrev
    | cons c0 Cr => exact ⟨c0, Cr, rfl⟩
  have hc0 : c0 = '}' := by
    rw [hCr] at hCrev
    simpa using hCrev
  unfold pyStrip
  rw [h1, List.reverse_append, List.reverse_append]
  cases hB : B.reverse.dropWhile isPyWs with
  | nil =>
    refine ⟨A1, [], ?_, hA1mem, ?_, hA1head, Or.inl rfl⟩
    · rw [dropWhile_append_of_all _ hB]
      rw [hCr, List.cons_append, List.dropWhile_cons_of_neg (by rw [hc0]; decide),
        ← List.cons_append, ← hCr]
      rw [List.reverse_append, List.reverse_reverse, List.reverse_reverse, List.append_nil]
    · intro c hc
      cases hc
  | cons b bs =>
    refine ⟨A1, (b :: bs).reverse, ?_, hA1mem, ?_, hA1head,
      Or.inr ⟨b, by simp, dropWhile_head_not hB rfl⟩⟩
    · rw [dropWhile_append_of_ne_nil _ (by rw [hB]; simp), hB]
      rw [List.reverse_append, List.reverse_append, List.reverse_reverse,
        List.reverse_reverse, List.append_assoc]
    · intro c hc
      have hmem : c ∈ b :: bs := by
        rw [List.mem_reverse] at hc
        exact hc
      have := (List.dropWhile_sublist isPyWs).mem (hB ▸ hmem)
      simpa using this

/-- The greedy brace span of `A ++ C ++ B` with `A`, `B` brace-free and
`C` running from `{` to `}` is exactly `C`. -/
theorem extractSpan_mid (A C B : List Char)
    (hA : braceFree A) (hB : braceFree B)
    (hH : C.head? = some '{') (hL : C.getLast? = some '}') (hlen : 2 ≤ C.length) :
    extractSpan (A ++ C ++ B) = some C := by
  obtain ⟨Ct, hC⟩ : ∃ Ct, C = '{' :: Ct := by
    cases C with
    | nil => cases hH
    | cons c0 Ct =>
      have hc0 : c0 = '{' := by simpa using hH
      exact ⟨Ct, by rw [hc0]⟩
  have hfind1 : (A ++ C ++ B).findIdx? (· = '{') = some A.length := by
    rw [List.append_assoc, List.findIdx?_append]
    rw [show A.findIdx? (· = '{') = none from List.findIdx?_eq_none_iff.mpr
      (fun x hx => by simp [(hA x hx).1])]
    rw [List.findIdx?_append]
    rw [hC, List.findIdx?_cons]
    simp
  have hfind2 : (A ++ C ++ B).reverse.findIdx? (· = '}') = some B.length := by
    have hBnone : B.reverse.findIdx? (· = '}') = none := List.findIdx?_eq_none_iff.mpr
      (fun x hx => by simp [(hB x (by rwa [List.mem_reverse] at hx)).2])
    have hAnone : A.reverse.findIdx? (· = '}') = none := List.findIdx?_eq_none_iff.mpr
      (fun x hx => by simp [(hA x (by rwa [List.mem_reverse] at hx)).2])
    obtain ⟨c0, Cr, hCr⟩ : ∃ c0 Cr, C.reverse = c0 :: Cr := by
      cases hcr : C.reverse with
      | nil =>
        have hh : C.reverse.head? = some '}' := by rw [List.head?_reverse]; exact hL
        rw [hcr] at hh
        cases hh
      | cons c0 Cr => exact ⟨c0, Cr, rfl⟩
    have hc0 : c0 = '}' := by
      have hh : C.reverse.head? = some '}' := by rw [List.head?_reverse]; exact hL
      rw [hCr] at hh
      simpa using hh
    have hCfind : C.reverse.findIdx? (· = '}') = some 0 := by
      rw [hCr, List.findIdx?_cons]
      simp [hc0]
    rw [List.append_assoc, List.reverse_append, List.reverse_append,
      List.findIdx?_append, List.findIdx?_append, hBnone, hAnone, hCfind]
    simp
  unfold extractSpan
  rw [hfind1, hfind2]
  dsimp only
  have hcond : A.length < (A ++ C ++ B).length - 1 - B.length := by
    simp only [List.length_append]
    omega
  rw [if_pos hcond]
  congr 1
  have htake : (A ++ C ++ B).length - 1 - B.length - A.length + 1 = C.length := by
    simp only [List.length_append]
    omega
  rw [htake, List.append_assoc, List.drop_left, List.take_left]

/-! Parser structure lemmas: every parser returns a suffix of its input,
and a parsed object is delimited by `{`  `}` in the consumed prefix. -/

theorem isJsonWs_imp_isPyWs {c : Char} (h : isJsonWs c = true) : isPyWs c = true := by
  unfold isJsonWs at h
  simp only [Bool.decide_or, Bool.or_eq_true, decide_eq_true_eq] at h
  rcases h with h | h | h | h <;> subst h <;> decide

theorem suffix_cons2 (a b : Char) (l : List Char) : l <:+ a :: b :: l :=
  (List.suffix_cons b l).trans (List.suffix_cons a (b :: l))

theorem suffix_cons6 (a b c d e f : Char) (l : List Char) :
    l <:+ a :: b :: c :: d :: e :: f :: l :=
  (suffix_cons2 e f l).trans ((suffix_cons2 c d _).trans (suffix_cons2 a b _))

theorem parseJsonString_suffix (s : List Char) :
    ∀ p r, parseJsonString s = some (p, r) → r <:+ s := by
  induction s using parseJsonString.induct with
  | case1 =>
    intro p r h
    cases h
  | case2 r2 =>
    intro p r h
    unfold parseJsonString at h
    rw [if_pos rfl] at h
    obtain ⟨h1, h2⟩ := Prod.mk.injEq .. ▸ Option.some.inj h
    rw [← h2]
    exact List.suffix_cons _ r2
  | case3 hq =>
    intro p r h
    unfold parseJsonString at h
    simp only [Char.reduceEq, reduceIte] at h
    cases h
  | case4 e r2 he hq ih =>
    intro p r h
    unfold parseJsonString at h
    rw [if_neg (by decide), if_pos rfl] at h
    dsimp only at h
    rw [if_pos he] at h
    obtain ⟨⟨q, rq⟩, hq2, heq⟩ := Option.map_eq_some'.mp h
    simp only [Prod.mk.injEq] at heq
    rw [← heq.2]
    exact (ih q rq hq2).trans (suffix_cons2 _ _ r2)
  | case5 r2 h1 h2 ih =>
    intro p r h
    unfold parseJsonString at h
    simp only [Char.reduceEq, reduceIte, false_or, or_false,
      Option.map_eq_some', Prod.mk.injEq] at h
    obtain ⟨⟨q, rq⟩, hq2, -, heq⟩ := h
    rw [← heq]
    exact (ih q rq hq2).trans (suffix_cons2 _ _ r2)
  | case6 r2 h1 h2 h3 ih =>
    intro p r h
    unfold parseJsonString at h
    simp only [Char.reduceEq, reduceIte, false_or, or_false,
      Option.map_eq_some', Prod.mk.injEq] at h
    obtain ⟨⟨q, rq⟩, hq2, -, heq⟩ := h
    rw [← heq]
    exact (ih q rq hq2).trans (suffix_cons2 _ _ r2)
  | case7 r2 h1 h2 h3 h4 ih =>
    intro p r h
    unfold parseJsonString at h
    simp only [Char.reduceEq, reduceIte, false_or, or_false,
      Option.map_eq_some', Prod.mk.injEq] at h
    obtain ⟨⟨q, rq⟩, hq2, -, heq⟩ := h
    rw [← heq]
    exact (ih q rq hq2).trans (suffix_cons2 _ _ r2)
  | case8 r2 h1 h2 h3 h4 h5 ih =>
    intro p r h
    unfold parseJsonString at h
    simp only [Char.reduceEq, reduceIte, false_or, or_false,
      Option.map_eq_some', Prod.mk.injEq] at h
    obtain ⟨⟨q, rq⟩, hq2, -, heq⟩ := h
    rw [← heq]
    exact (ih q rq hq2).trans (suffix_cons2 _ _ r2)
  | case9 r2 h1 h2 h3 h4 h5 h6 ih =>
    intro p r h
    unfold parseJsonString at h
    simp only [Char.reduceEq, reduceIte, false_or, or_false,
      Option.map_eq_some', Prod.mk.injEq] at h
    obtain ⟨⟨q, rq⟩, hq2, -, heq⟩ := h
    rw [← heq]
    exact (ih q rq hq2).trans (suffix_cons2 _ _ r2)
  | case10 h1 h2 h3 h4 r3 a b c3 d hx4 hx3 hx2 hx1 e1 e2 e3 e4 e5 e6 e7 ih =>
    intro p r h
    unfold parseJsonString at h
    simp only [Char.reduceEq, reduceIte, false_or, or_false, hx1, hx2, hx3, hx4,
      Option.map_eq_some', Prod.mk.injEq] at h
    obtain ⟨⟨q, rq⟩, hq2, -, heq⟩ := h
    rw [← heq]
    exact (ih q rq hq2).trans (suffix_cons6 _ _ _ _ _ _ r3)
  | case11 h1 h2 h3 h4 r3 hbad e1 e2 e3 e4 e5 e6 e7 =>
    intro p r h
    unfold parseJsonString at h
    simp only [Char.reduceEq, reduceIte, false_or, or_false] at h
    cases h
  | case12 r2 hshort e1 e2 e3 e4 e5 e6 e7 =>
    intro p r h
    unfold parseJsonString at h
    simp only [Char.reduceEq, reduceIte, false_or, or_false] at h
    cases h
  | case13 e r2 he1 he2 he3 he4 he5 he6 he7 hq =>
    intro p r h
    unfold parseJsonString at h
    rw [if_neg (by decide), if_pos rfl] at h
    dsimp only at h
    rw [if_neg he1, if_neg he2, if_neg he3, if_neg he4, if_neg he5,
      if_neg he6, if_neg he7] at h
    cases h
  | case14 e r2 he1 he2 hctl =>
    intro p r h
    unfold parseJsonString at h
    rw [if_neg he1, if_neg he2, if_pos hctl] at h
    cases h
  | case15 e r2 he1 he2 hctl ih =>
    intro p r h
    unfold parseJsonString at h
    rw [if_neg he1, if_neg he2, if_neg hctl] at h
    obtain ⟨⟨q, rq⟩, hq2, heq⟩ := Option.map_eq_some'.mp h
    simp only [Prod.mk.injEq] at heq
    rw [← heq.2]
    exact (ih q rq hq2).trans (List.suffix_cons e r2)

theorem dropWhile_cons_suffix {p : Char → Bool} {X : List Char} {c : Char} {T : List Char}
    (h : X.dropWhile p = c :: T) : T <:+ X := by
  have h2 : List.dropWhile p X <:+ X := List.dropWhile_suffix p
  rw [h] at h2
  exact (List.suffix_cons c T).trans h2

theorem dropWhile_suffix_of_suffix {p : Char → Bool} {l L : List Char} (h : l <:+ L) :
    l.dropWhile p <:+ L := (List.dropWhile_suffix p).trans h

theorem dropWhile_cons_suffix_trans {p : Char → Bool} {X L : List Char} {c : Char}
    {T : List Char} (h : X.dropWhile p = c :: T) (hXL : X <:+ L) : T <:+ L :=
  (dropWhile_cons_suffix h).trans hXL

theorem dropWhile_cons2_suffix_trans {p : Char → Bool} {X L : List Char} {c d : Char}
    {T : List Char} (h : X.dropWhile p = c :: d :: T) (hXL : X <:+ L) : T <:+ L :=
  ((List.suffix_cons d T).trans (dropWhile_cons_suffix h)).trans hXL

theorem stripSign_suffix (s : List Char) : (stripSign s).2 <:+ s := by
  unfold stripSign
  split
  · exact List.suffix_cons _ _
  · exact List.suffix_rfl

theorem stripExpSign_suffix (s : List Char) : (stripExpSign s).2 <:+ s := by
  unfold stripExpSign
  split
  · exact List.suffix_cons _ _
  · exact List.suffix_cons _ _
  · exact List.suffix_rfl

theorem stripExpSign_suffix_trans {s L : List Char} (h : s <:+ L) :
    (stripExpSign s).2 <:+ L := (stripExpSign_suffix s).trans h

theorem stripSign_suffix_trans {s L : List Char} (h : s <:+ L) :
    (stripSign s).2 <:+ L := (stripSign_suffix s).trans h

set_option maxHeartbeats 1000000 in
theorem parseNumber_spec : ∀ (s : List Char) (v : PyVal) (r : List Char),
    parseNumber s = some (v, r) → r <:+ s ∧ ∀ ps, v ≠ PyVal.vDict ps := by
  intro s v r
  unfold parseNumber
  dsimp only
  repeat' split
  all_goals intro h
  all_goals cases h
  all_goals refine ⟨?_, nofun⟩
  all_goals try solve_by_elim [List.nil_suffix, List.suffix_rfl, List.suffix_cons,
    dropWhile_cons_suffix, dropWhile_suffix_of_suffix,
    dropWhile_cons_suffix_trans, dropWhile_cons2_suffix_trans,
    stripSign_suffix, stripExpSign_suffix, stripSign_suffix_trans, stripExpSign_suffix_trans]
  all_goals exact dropWhile_suffix_of_suffix (stripExpSign_suffix_trans
    (dropWhile_cons_suffix_trans (by assumption)
      (dropWhile_cons_suffix_trans (by assumption) (stripSign_suffix s))))

theorem skipJsonWs_suffix (l : List Char) : skipJsonWs l <:+ l := List.dropWhile_suffix _

theorem skipJsonWs_suffix_of_suffix {l L : List Char} (h : l <:+ L) :
    skipJsonWs l <:+ L := (skipJsonWs_suffix l).trans h

theorem skipJsonWs_cons_suffix_trans {X L : List Char} {c : Char} {T : List Char}
    (h : skipJsonWs X = c :: T) (hXL : X <:+ L) : T <:+ L :=
  (dropWhile_cons_suffix h).trans hXL

theorem parseItemsGo_suffix (pv : List Char → Option (PyVal × List Char))
    (hpv : ∀ s v r, pv s = some (v, r) → r <:+ s) :
    ∀ (fuel : Nat) (s : List Char) (vs : List PyVal) (r : List Char),
      parseItemsGo pv fuel s = some (vs, r) → r <:+ s := by
  intro fuel
  induction fuel with
  | zero =>
    intro s vs r h
    cases h
  | succ fuel ih =>
    intro s vs r
    unfold parseItemsGo
    split
    · intro h
      cases h
    · rename_i v r1 hpv1
      split
      · rename_i r2 hskip1
        split
        · rename_i vs0 r3 hrec
          intro h
          cases h
          exact (ih _ _ _ hrec).trans (skipJsonWs_suffix_of_suffix
            (skipJsonWs_cons_suffix_trans hskip1 (hpv _ _ _ hpv1)))
        · intro h
          cases h
      · rename_i r2 hskip1
        intro h
        cases h
        exact skipJsonWs_cons_suffix_trans hskip1 (hpv _ _ _ hpv1)
      · intro h
        cases h


theorem suffix_decomp {a b : List Char} (h : a <:+ b) : ∃ t, b = t ++ a := by
  obtain ⟨t, ht⟩ := h
  exact ⟨t, ht.symm⟩

theorem skipJsonWs_decomp (X : List Char) :
    X = X.takeWhile isJsonWs ++ skipJsonWs X :=
  (List.takeWhile_append_dropWhile isJsonWs X).symm

theorem parsePairsGo_rb (pv : List Char → Option (PyVal × List Char))
    (hpv : ∀ s v r, pv s = some (v, r) → r <:+ s) :
    ∀ (fuel : Nat) (s : List Char) (ps : PyDict) (r : List Char),
      parsePairsGo pv fuel s = some (ps, r) → ∃ D0, s = D0 ++ '}' :: r := by
  intro fuel
  induction fuel with
  | zero =>
    intro s ps r h
    cases h
  | succ fuel ih =>
    intro s ps r
    unfold parsePairsGo
    split
    · rename_i rest
      split
      · rename_i k r1 hstr
        split
        · rename_i r2 hskip1
          split
          · rename_i v r3 hval
            split
            · rename_i r4 hskip3
              split
              · rename_i ps0 r5 hrec
                intro h
                cases h
                obtain ⟨D0, hD0⟩ := ih _ _ _ hrec
                obtain ⟨K, hK⟩ := suffix_decomp (parseJsonString_suffix _ _ _ hstr)
                obtain ⟨V, hV⟩ := suffix_decomp (hpv _ _ _ hval)
                have e2 : r1 = r1.takeWhile isJsonWs ++ (':' :: r2) := by
                  rw [← hskip1]
                  exact skipJsonWs_decomp r1
                have e3 : r2 = r2.takeWhile isJsonWs ++ (V ++ r3) := by
                  rw [← hV]
                  exact skipJsonWs_decomp r2
                have e4 : r3 = r3.takeWhile isJsonWs ++ (',' :: r4) := by
                  rw [← hskip3]
                  exact skipJsonWs_decomp r3
                have e5 : r4 = r4.takeWhile isJsonWs ++ (D0 ++ '}' :: r) := by
                  rw [← hD0]
                  exact skipJsonWs_decomp r4
                refine ⟨'"' :: (K ++ (r1.takeWhile isJsonWs ++ (':' :: (r2.takeWhile isJsonWs ++
                  (V ++ (r3.takeWhile isJsonWs ++ (',' :: (r4.takeWhile isJsonWs ++ D0)))))))), ?_⟩
                conv_lhs => rw [hK, e2]
                conv_lhs => rw [e3]
                conv_lhs => rw [e4]
                conv_lhs => rw [e5]
                simp only [List.cons_append, List.append_assoc]
              · intro h
                cases h
            · rename_i r4 hskip3
              intro h
              cases h
              obtain ⟨K, hK⟩ := suffix_decomp (parseJsonString_suffix _ _ _ hstr)
              obtain ⟨V, hV⟩ := suffix_decomp (hpv _ _ _ hval)
              have e2 : r1 = r1.takeWhile isJsonWs ++ (':' :: r2) := by
                rw [← hskip1]
                exact skipJsonWs_decomp r1
              have e3 : r2 = r2.takeWhile isJsonWs ++ (V ++ r3) := by
                rw [← hV]
                exact skipJsonWs_decomp r2
              have e4 : r3 = r3.takeWhile isJsonWs ++ ('}' :: r) := by
                rw [← hskip3]
                exact skipJsonWs_decomp r3
              refine ⟨'"' :: (K ++ (r1.takeWhile isJsonWs ++ (':' :: (r2.takeWhile isJsonWs ++
                (V ++ r3.takeWhile isJsonWs))))), ?_⟩
              conv_lhs => rw [hK, e2]
              conv_lhs => rw [e3]
              conv_lhs => rw [e4]
              simp only [List.cons_append, List.append_assoc]
            · intro h
              cases h
          · intro h
            cases h
        · intro h
          cases h
      · intro h
        cases h
    · intro h
      cases h


theorem suffix_append_left (t a : List Char) : a <:+ t ++ a := ⟨t, rfl⟩

theorem suffix_cons_of_suffix {c : Char} {l L : List Char} (h : l <:+ L) :
    l <:+ c :: L := h.trans (List.suffix_cons c L)

theorem parseValGo_nil : ∀ fuel : Nat, parseValGo fuel [] = none
  | 0 => rfl
  | _ + 1 => rfl

theorem parseValGo_succ (fuel : Nat) (s : List Char) :
    parseValGo (fuel + 1) s =
      match s with
      | [] => none
      | c :: rest =>
        if c = '{' then
          match skipJsonWs rest with
          | '}' :: r2 => some (PyVal.vDict [], r2)
          | r1 =>
            match parsePairsGo (parseValGo fuel) fuel r1 with
            | some (ps, r2) => some (PyVal.vDict ps, r2)
            | none => none
        else if c = '[' then
          match skipJsonWs rest with
          | ']' :: r2 => some (PyVal.vList [], r2)
          | r1 =>
            match parseItemsGo (parseValGo fuel) fuel r1 with
            | some (vs, r2) => some (PyVal.vList vs, r2)
            | none => none
        else if c = '"' then
          match parseJsonString rest with
          | some (str, r1) => some (PyVal.vStr str, r1)
          | none => none
        else if c = 't' then
          match rest with
          | 'r' :: 'u' :: 'e' :: r1 => some (PyVal.vBool true, r1)
          | _ => none
        else if c = 'f' then
          match rest with
          | 'a' :: 'l' :: 's' :: 'e' :: r1 => some (PyVal.vBool false, r1)
          | _ => none
        else if c = 'n' then
          match rest with
          | 'u' :: 'l' :: 'l' :: r1 => some (PyVal.vNone, r1)
          | _ => none
        else parseNumber s := rfl

theorem parseValGo_suffix :
    ∀ (fuel : Nat) (s : List Char) (v : PyVal) (r : List Char),
      parseValGo fuel s = some (v, r) → r <:+ s := by
  intro fuel
  induction fuel with
  | zero =>
    intro s v r h
    cases h
  | succ fuel ih =>
    intro s v r
    rw [parseValGo_succ]
    split
    · intro h
      cases h
    · rename_i c rest
      split
      · rename_i hc
        split
        · rename_i r2 hskip
          intro h
          cases h
          exact suffix_cons_of_suffix (skipJsonWs_cons_suffix_trans hskip List.suffix_rfl)
        · rename_i hne
          split
          · rename_i ps r2 hpairs
            intro h
            cases h
            obtain ⟨D0, hD0⟩ := parsePairsGo_rb (parseValGo fuel) ih fuel _ _ _ hpairs
            have hr2 : r <:+ skipJsonWs rest := by
              rw [hD0]
              exact ((List.suffix_cons '}' r).trans (suffix_append_left D0 _))
            exact suffix_cons_of_suffix (hr2.trans (skipJsonWs_suffix rest))
          · intro h
            cases h
      · split
        · rename_i hc2
          split
          · rename_i r2 hskip
            intro h
            cases h
            exact suffix_cons_of_suffix (skipJsonWs_cons_suffix_trans hskip List.suffix_rfl)
          · rename_i hne
            split
            · rename_i vs r2 hitems
              intro h
              cases h
              have hr2 := parseItemsGo_suffix (parseValGo fuel) ih fuel _ _ _ hitems
              exact suffix_cons_of_suffix (hr2.trans (skipJsonWs_suffix rest))
            · intro h
              cases h
        · split
          · rename_i hc3
            split
            · rename_i str r1 hstr
              intro h
              cases h
              exact suffix_cons_of_suffix (parseJsonString_suffix _ _ _ hstr)
            · intro h
              cases h
          · split
            · rename_i hc4
              split
              · rename_i r1
                intro h
                cases h
                exact suffix_cons_of_suffix ((List.suffix_cons 'e' r).trans
                  ((List.suffix_cons 'u' _).trans (List.suffix_cons 'r' _)))
              · intro h
                cases h
            · split
              · rename_i hc5
                split
                · rename_i r1
                  intro h
                  cases h
                  exact suffix_cons_of_suffix ((List.suffix_cons 'e' r).trans
                    ((List.suffix_cons 's' _).trans ((List.suffix_cons 'l' _).trans
                      (List.suffix_cons 'a' _))))
                · intro h
                  cases h
              · split
                · rename_i hc6
                  split
                  · rename_i r1
                    intro h
                    cases h
                    exact suffix_cons_of_suffix ((List.suffix_cons 'l' r).trans
                      ((List.suffix_cons 'l' _).trans (List.suffix_cons 'u' _)))
                  · intro h
                    cases h
                · intro h
                  exact (parseNumber_spec _ _ _ h).1

theorem getLast?_append_singleton (l : List Char) (a : Char) :
    (l ++ [a]).getLast? = some a := by
  rw [List.getLast?_concat]

theorem parseValGo_dict_shape (fuel : Nat) (s : List Char) (ps : PyDict) (r : List Char)
    (h : parseValGo fuel s = some (PyVal.vDict ps, r)) :
    ∃ C, s = C ++ r ∧ C.head? = some '{' ∧ C.getLast? = some '}' ∧ 2 ≤ C.length := by
  match fuel with
  | 0 => cases h
  | fuel + 1 =>
    rw [parseValGo_succ] at h
    revert h
    split
    · intro h
      cases h
    · rename_i c rest
      split
      · rename_i hc
        subst hc
        split
        · rename_i r2 hskip
          intro h
          cases h
          refine ⟨'{' :: (rest.takeWhile isJsonWs ++ ['}']), ?_, rfl, ?_, ?_⟩
          · have e1 : rest = rest.takeWhile isJsonWs ++ ('}' :: r) := by
              rw [← hskip]
              exact skipJsonWs_decomp rest
            conv_lhs => rw [e1]
            simp only [List.cons_append, List.append_assoc, List.singleton_append,
              List.nil_append]
          · rw [getLast?_cons_of_ne_nil _ (by simp), getLast?_append_singleton]
          · simp only [List.length_cons, List.length_append, List.length_singleton]
            omega
        · split
          · rename_i ps0 r2 hpairs
            intro h
            cases h
            obtain ⟨D0, hD0⟩ := parsePairsGo_rb (parseValGo fuel) (parseValGo_suffix fuel)
              fuel _ _ _ hpairs
            refine ⟨'{' :: (rest.takeWhile isJsonWs ++ (D0 ++ ['}'])), ?_, rfl, ?_, ?_⟩
            · have e1 : rest = rest.takeWhile isJsonWs ++ (D0 ++ '}' :: r) := by
                rw [← hD0]
                exact skipJsonWs_decomp rest
              conv_lhs => rw [e1]
              simp only [List.cons_append, List.append_assoc, List.singleton_append,
                List.nil_append]
            · rw [getLast?_cons_of_ne_nil _ (by simp), ← List.append_assoc,
                getLast?_append_singleton]
            · simp only [List.length_cons, List.length_append, List.length_singleton]
              omega
          · intro h
            cases h
      · split
        · split
          · intro h
            cases h
          · split
            · intro h
              cases h
            · intro h
              cases h
        · split
          · split
            · intro h
              cases h
            · intro h
              cases h
          · split
            · split
              · intro h
                cases h
              · intro h
                cases h
            · split
              · split
                · intro h
                  cases h
                · intro h
                  cases h
              · split
                · split
                  · intro h
                    cases h
                  · intro h
                    cases h
                · intro h
                  exact absurd rfl ((parseNumber_spec _ _ _ h).2 ps)


theorem jsonLoads_dict_decompose (J : List Char) (d : PyDict)
    (h : jsonLoads J = some (PyVal.vDict d)) :
    ∃ W1 C W2, J = W1 ++ C ++ W2
      ∧ (∀ c ∈ W1, isJsonWs c = true) ∧ (∀ c ∈ W2, isJsonWs c = true)
      ∧ C.head? = some '{' ∧ C.getLast? = some '}' ∧ 2 ≤ C.length
      ∧ parseValGo ((skipJsonWs J).length + 1) (skipJsonWs J)
          = some (PyVal.vDict d, W2) := by
  have h2 : (match parseValGo ((skipJsonWs J).length + 1) (skipJsonWs J) with
      | some (v, r) => if skipJsonWs r = [] then some v else none
      | none => none) = some (PyVal.vDict d) := h
  clear h
  revert h2
  split
  · rename_i v r hparse
    split
    · rename_i hr
      intro h2
      cases h2
      obtain ⟨C, hC, hH, hL, hlen⟩ := parseValGo_dict_shape _ _ _ _ hparse
      refine ⟨J.takeWhile isJsonWs, C, r, ?_, ?_, ?_, hH, hL, hlen, hparse⟩
      · conv_lhs => rw [skipJsonWs_decomp J]
        rw [hC, List.append_assoc]
      · intro c hc
        exact List.mem_takeWhile_imp hc
      · intro c hc
        exact dropWhile_eq_nil_imp isJsonWs r hr c hc
    · intro h2
      cases h2
  · intro h2
    cases h2

theorem jsonLoads_ne_dict_of_head (X : List Char) (a : Char) (d : PyDict)
    (hh : X.head? = some a) (hw : isJsonWs a = false) (hne : a ≠ '{') :
    jsonLoads X ≠ some (PyVal.vDict d) := by
  intro h
  obtain ⟨W1, C, W2, hX, hW1, hW2, hH, hL, hlen, hparse⟩ := jsonLoads_dict_decompose X d h
  obtain ⟨Ct, hCt⟩ : ∃ Ct, C = '{' :: Ct := by
    cases C with
    | nil => cases hH
    | cons c0 Ct =>
      have : c0 = '{' := by simpa using hH
      exact ⟨Ct, by rw [this]⟩
  have hW1nil : W1 = [] := by
    cases hW1h : W1 with
    | nil => rfl
    | cons w ws =>
      have hmem : w ∈ W1 := by rw [hW1h]; exact List.mem_cons_self w ws
      have hws := hW1 w hmem
      have : X.head? = some w := by
        rw [hX, hW1h]
        rfl
      rw [hh] at this
      have haw : a = w := by simpa using this
      rw [haw, hws] at hw
      cases hw
  rw [hW1nil, List.nil_append, hCt] at hX
  rw [hX] at hh
  have : '{' = a := by simpa using hh
  exact hne this.symm

theorem jsonLoads_ne_dict_of_last (X : List Char) (b : Char) (d : PyDict)
    (hl : X.getLast? = some b) (hw : isJsonWs b = false) (hne : b ≠ '}') :
    jsonLoads X ≠ some (PyVal.vDict d) := by
  intro h
  obtain ⟨W1, C, W2, hX, hW1, hW2, hH, hL, hlen, hparse⟩ := jsonLoads_dict_decompose X d h
  have hCne : C ≠ [] := by
    intro hc
    rw [hc] at hH
    cases hH
  cases hW2c : W2 with
  | nil =>
    rw [hW2c, List.append_nil] at hX
    rw [hX, List.getLast?_append_of_ne_nil _ hCne, hL] at hl
    exact hne (by simpa using hl.symm)
  | cons w ws =>
    have hWne : W2 ≠ [] := by rw [hW2c]; exact List.cons_ne_nil w ws
    rw [hX, List.append_assoc, List.getLast?_append_of_ne_nil _ (by
      intro hcc
      exact hWne (List.append_eq_nil.mp hcc).2),
      List.getLast?_append_of_ne_nil _ hWne] at hl
    have hbmem : b ∈ W2 := List.mem_of_mem_getLast? (by rw [hl]; rfl)
    rw [hW2 b hbmem] at hw
    cases hw

theorem fenceSub1_id_of_no_bt : ∀ s : List Char, (∀ c ∈ s, c ≠ btChar) → fenceSub1 s = s := by
  intro s
  induction s with
  | nil => intro _; exact fenceSub1_nil
  | cons c t ih =>
    intro h
    rw [fenceSub1_cons_nonbt t (h c (List.mem_cons_self c t))]
    rw [ih (fun x hx => h x (List.mem_cons_of_mem c hx))]

theorem fenceSub2_id_of_no_bt : ∀ s : List Char, (∀ c ∈ s, c ≠ btChar) → fenceSub2 s = s := by
  intro s
  induction s with
  | nil => intro _; exact fenceSub2_nil
  | cons c t ih =>
    intro h
    rw [fenceSub2_cons_nonbt t (h c (List.mem_cons_self c t))]
    rw [ih (fun x hx => h x (List.mem_cons_of_mem c hx))]

theorem ws_no_bt {W : List Char} (hW : ∀ c ∈ W, isJsonWs c = true) :
    ∀ c ∈ W, c ≠ btChar := fun c hc => isPyWs_ne_bt (isJsonWs_imp_isPyWs (hW c hc))

theorem cleanText_ws_wrap (W1 C W2 : List Char)
    (hW1 : ∀ c ∈ W1, isJsonWs c = true) (hW2 : ∀ c ∈ W2, isJsonWs c = true)
    (hCbt : ∀ c ∈ C, c ≠ btChar)
    (hH : C.head? = some '{') (hL : C.getLast? = some '}') :
    cleanText (W1 ++ C ++ W2) = C := by
  have hbt : ∀ c ∈ W1 ++ C ++ W2, c ≠ btChar := by
    intro c hc
    rw [List.append_assoc, List.mem_append] at hc
    rcases hc with hc | hc
    · exact ws_no_bt hW1 c hc
    · rw [List.mem_append] at hc
      rcases hc with hc | hc
      · exact hCbt c hc
      · exact ws_no_bt hW2 c hc
  unfold cleanText
  rw [fenceSub1_id_of_no_bt _ hbt, fenceSub2_id_of_no_bt _ hbt]
  obtain ⟨A3, B3, hstrip, hA3mem, hB3mem, hA3head, hB3last⟩ := pyStrip_mid W1 C W2 hH hL
  have hA3 : A3 = [] := by
    rcases hA3head with h | ⟨a, ha, haw⟩
    · exact h
    · have hamem : a ∈ A3 := List.mem_of_mem_head? (by rw [ha]; rfl)
      rw [isJsonWs_imp_isPyWs (hW1 a (hA3mem a hamem))] at haw
      cases haw
  have hB3 : B3 = [] := by
    rcases hB3last with h | ⟨b, hb, hbw⟩
    · exact h
    · have hbmem : b ∈ B3 := List.mem_of_mem_getLast? (by rw [hb]; rfl)
      rw [isJsonWs_imp_isPyWs (hW2 b (hB3mem b hbmem))] at hbw
      cases hbw
  rw [hstrip, hA3, hB3, List.nil_append, List.append_nil]


theorem cleanText_mid (A C B : List Char)
    (hCbt : ∀ c ∈ C, c ≠ btChar)
    (hH : C.head? = some '{') (hL : C.getLast? = some '}') :
    ∃ A3 B3, cleanText (A ++ C ++ B) = A3 ++ C ++ B3
      ∧ (∀ c ∈ A3, c ∈ fenceSub2 (fenceSub1 A)) ∧ (∀ c ∈ B3, c ∈ fenceSub2 (fenceSub1 B))
      ∧ (A3 = [] ∨ ∃ a, A3.head? = some a ∧ isPyWs a = false)
      ∧ (B3 = [] ∨ ∃ b, B3.getLast? = some b ∧ isPyWs b = false) := by
  obtain ⟨Ct, hCt⟩ : ∃ Ct, C = '{' :: Ct := by
    cases C with
    | nil => cases hH
    | cons c0 Ct =>
      have hc0 : c0 = '{' := by simpa using hH
      exact ⟨Ct, by rw [hc0]⟩
  have e0 : A ++ C ++ B = A ++ '{' :: (Ct ++ B) := by
    rw [List.append_assoc, hCt]
    rfl
  have e1 : fenceSub1 (A ++ C ++ B) = fenceSub1 A ++ (C ++ fenceSub1 B) := by
    rw [e0, fenceSub1_split_braceHead A.length A le_rfl '{' (Ct ++ B) (Or.inl rfl)]
    have e2 : ('{' :: (Ct ++ B) : List Char) = C ++ B := by
      rw [hCt]
      rfl
    rw [e2, fenceSub1_split_rbLast C.length C le_rfl hL B,
      fenceSub1_id_of_no_bt C hCbt]
  have e3 : fenceSub2 (fenceSub1 (A ++ C ++ B))
      = fenceSub2 (fenceSub1 A) ++ C ++ fenceSub2 (fenceSub1 B) := by
    rw [e1]
    have e4 : fenceSub1 A ++ (C ++ fenceSub1 B)
        = fenceSub1 A ++ '{' :: (Ct ++ fenceSub1 B) := by
      rw [hCt]
      rfl
    rw [e4, fenceSub2_split_braceHead (fenceSub1 A).length (fenceSub1 A) le_rfl '{'
      (Ct ++ fenceSub1 B) (Or.inl rfl)]
    have e5 : ('{' :: (Ct ++ fenceSub1 B) : List Char) = C ++ fenceSub1 B := by
      rw [hCt]
      rfl
    rw [e5, fenceSub2_split_rbLast C.length C le_rfl hL (fenceSub1 B),
      fenceSub2_id_of_no_bt C hCbt]
    simp only [List.append_assoc]
  obtain ⟨A3, B3, hstrip, hA3mem, hB3mem, hA3head, hB3last⟩ :=
    pyStrip_mid (fenceSub2 (fenceSub1 A)) C (fenceSub2 (fenceSub1 B)) hH hL
  refine ⟨A3, B3, ?_, hA3mem, hB3mem, hA3head, hB3last⟩
  unfold cleanText
  rw [e3]
  exact hstrip


/-- The three fallback stages of `parse_llm_output` over the already-cleaned
text (steps 2-4 of the source). -/
def parseStages (cleaned : List Char) : Option PyDict :=
  match jsonLoads cleaned with
  | some (PyVal.vDict d) => some d
  | _ =>
    match extractSpan cleaned with
    | none => none
    | some span =>
      match jsonLoads span with
      | some (PyVal.vDict d) => some d
      | _ =>
        match jsonLoads (repairCommas span) with
        | some (PyVal.vDict d) => some d
        | _ => none

theorem parseLlmOutput_eq_stages (raw : List Char) :
    parseLlmOutput raw = parseStages (cleanText raw) := rfl

theorem parseStages_not_dict_span (X C : List Char)
    (hnd : ∀ d', jsonLoads X ≠ some (PyVal.vDict d'))
    (hspan : extractSpan X = some C) :
    parseStages X =
      match jsonLoads C with
      | some (PyVal.vDict d) => some d
      | _ =>
        match jsonLoads (repairCommas C) with
        | some (PyVal.vDict d) => some d
        | _ => none := by
  unfold parseStages
  rw [hspan]
  cases hjl : jsonLoads X with
  | none => rfl
  | some v =>
    cases v with
    | vDict d' => exact absurd hjl (hnd d')
    | vList l => rfl
    | vStr s => rfl
    | vInt n => rfl
    | vFloat m e => rfl
    | vBool b => rfl
    | vNone => rfl

theorem parseStages_of_not_dict (X C : List Char)
    (hnd : ∀ d', jsonLoads X ≠ some (PyVal.vDict d'))
    (hspan : extractSpan X = some C)
    (hspanC : extractSpan C = some C) :
    parseStages X = parseStages C := by
  rw [parseStages_not_dict_span X C hnd hspan]
  cases hc : jsonLoads C with
  | none =>
    unfold parseStages
    rw [hc, hspanC]
    show (match jsonLoads (repairCommas C) with
        | some (PyVal.vDict d) => some d
        | _ => none) =
      (match jsonLoads C with
        | some (PyVal.vDict d) => some d
        | _ =>
          match jsonLoads (repairCommas C) with
          | some (PyVal.vDict d) => some d
          | _ => none)
    rw [hc]
  | some v =>
    cases v with
    | vDict d0 =>
      unfold parseStages
      rw [hc]
    | vList l =>
      unfold parseStages
      rw [hc, hspanC]
      show (match jsonLoads (repairCommas C) with
          | some (PyVal.vDict d) => some d
          | _ => none) =
        (match jsonLoads C with
          | some (PyVal.vDict d) => some d
          | _ =>
            match jsonLoads (repairCommas C) with
            | some (PyVal.vDict d) => some d
            | _ => none)
      rw [hc]
    | vStr s =>
      unfold parseStages
      rw [hc, hspanC]
      show (match jsonLoads (repairCommas C) with
          | some (PyVal.vDict d) => some d
          | _ => none) =
        (match jsonLoads C with
          | some (PyVal.vDict d) => some d
          | _ =>
            match jsonLoads (repairCommas C) with
            | some (PyVal.vDict d) => some d
            | _ => none)
      rw [hc]
    | vInt n =>
      unfold parseStages
      rw [hc, hspanC]
      show (match jsonLoads (repairCommas C) with
          | some (PyVal.vDict d) => some d
          | _ => none) =
        (match jsonLoads C with
          | some (PyVal.vDict d) => some d
          | _ =>
            match jsonLoads (repairCommas C) with
            | some (PyVal.vDict d) => some d
            | _ => none)
      rw [hc]
    | vFloat m e =>
      unfold parseStages
      rw [hc, hspanC]
      show (match jsonLoads (repairCommas C) with
          | some (PyVal.vDict d) => some d
          | _ => none) =
        (match jsonLoads C with
          | some (PyVal.vDict d) => some d
          | _ =>
            match jsonLoads (repairCommas C) with
            | some (PyVal.vDict d) => some d
            | _ => none)
      rw [hc]
    | vBool b =>
      unfold parseStages
      rw [hc, hspanC]
      show (match jsonLoads (repairCommas C) with
          | some (PyVal.vDict d) => some d
          | _ => none) =
        (match jsonLoads C with
          | some (PyVal.vDict d) => some d
          | _ =>
            match jsonLoads (repairCommas C) with
            | some (PyVal.vDict d) => some d
            | _ => none)
      rw [hc]
    | vNone =>
      unfold parseStages
      rw [hc, hspanC]
      show (match jsonLoads (repairCommas C) with
          | some (PyVal.vDict d) => some d
          | _ => none) =
        (match jsonLoads C with
          | some (PyVal.vDict d) => some d
          | _ =>
            match jsonLoads (repairCommas C) with
            | some (PyVal.vDict d) => some d
            | _ => none)
      rw [hc]


/-- **C4** For every valid JSON object text `J` (no stray fence backticks) and
prefix/suffix prose `P`, `S` containing no `\x7b`/`\x7d`,
`parse_llm_output (P ++ J ++ S) = parse_llm_output J`: the greedy brace span
is extracted and parsed. -/
theorem C4_brace_extraction (P S J : List Char) (d : PyDict)
    (hP : braceFree P) (hS : braceFree S)
    (hJbt : ∀ c ∈ J, c ≠ btChar)
    (hJ : jsonLoads J = some (PyVal.vDict d)) :
    parseLlmOutput (P ++ J ++ S) = parseLlmOutput J := by
  obtain ⟨W1, C, W2, hJdec, hW1, hW2, hH, hL, hlen, hparse⟩ := jsonLoads_dict_decompose J d hJ
  have hCbt : ∀ c ∈ C, c ≠ btChar := by
    intro c hc
    apply hJbt
    rw [hJdec]
    exact List.mem_append.mpr (Or.inl (List.mem_append.mpr (Or.inr hc)))
  have hcleanJ : cleanText J = C := by
    rw [hJdec]
    exact cleanText_ws_wrap W1 C W2 hW1 hW2 hCbt hH hL
  obtain ⟨A3, B3, hclean, hA3mem, hB3mem, hA3head, hB3last⟩ :=
    cleanText_mid (P ++ W1) C (W2 ++ S) hCbt hH hL
  have hbig0 : P ++ J ++ S = (P ++ W1) ++ C ++ (W2 ++ S) := by
    rw [hJdec]
    simp only [List.append_assoc]
  have hcleanBig : cleanText (P ++ J ++ S) = A3 ++ C ++ B3 := by
    rw [hbig0]
    exact hclean
  have hW1p : ∀ c ∈ W1, isPyWs c = true := fun c hc => isJsonWs_imp_isPyWs (hW1 c hc)
  have hW2p : ∀ c ∈ W2, isPyWs c = true := fun c hc => isJsonWs_imp_isPyWs (hW2 c hc)
  have hA3bf : braceFree A3 := fun c hc =>
    braceFree_fenceSub2 (braceFree_fenceSub1
      (braceFree_append hP (braceFree_of_ws hW1p))) c (hA3mem c hc)
  have hB3bf : braceFree B3 := fun c hc =>
    braceFree_fenceSub2 (braceFree_fenceSub1
      (braceFree_append (braceFree_of_ws hW2p) hS)) c (hB3mem c hc)
  have hbfnil : braceFree ([] : List Char) := fun c hc => absurd hc (List.not_mem_nil c)
  have hspanC : extractSpan C = some C := by
    have h0 := extractSpan_mid [] C [] hbfnil hbfnil hH hL hlen
    rwa [List.nil_append, List.append_nil] at h0
  rw [parseLlmOutput_eq_stages, parseLlmOutput_eq_stages, hcleanJ, hcleanBig]
  by_cases hA3e : A3 = []
  · by_cases hB3e : B3 = []
    · rw [hA3e, hB3e, List.nil_append, List.append_nil]
    · obtain ⟨b, hb, hbw⟩ : ∃ b, B3.getLast? = some b ∧ isPyWs b = false := by
        rcases hB3last with h | h
        · exact absurd h hB3e
        · exact h
      have hbjw : isJsonWs b = false := by
        cases hjw : isJsonWs b
        · rfl
        · rw [isJsonWs_imp_isPyWs hjw] at hbw
          cases hbw
      have hbmem : b ∈ B3 := List.mem_of_mem_getLast? (by rw [hb]; rfl)
      have hnd : ∀ d', jsonLoads (A3 ++ C ++ B3) ≠ some (PyVal.vDict d') := by
        intro d'
        rw [hA3e, List.nil_append]
        apply jsonLoads_ne_dict_of_last (C ++ B3) b d'
        · rw [List.getLast?_append_of_ne_nil C hB3e]
          exact hb
        · exact hbjw
        · exact (hB3bf b hbmem).2
      exact parseStages_of_not_dict _ C hnd
        (extractSpan_mid A3 C B3 hA3bf hB3bf hH hL hlen) hspanC
  · obtain ⟨a, ha, haw⟩ : ∃ a, A3.head? = some a ∧ isPyWs a = false := by
      rcases hA3head with h | h
      · exact absurd h hA3e
      · exact h
    have hajw : isJsonWs a = false := by
      cases hjw : isJsonWs a
      · rfl
      · rw [isJsonWs_imp_isPyWs hjw] at haw
        cases haw
    have hamem : a ∈ A3 := List.mem_of_mem_head? (by rw [ha]; rfl)
    have hnd : ∀ d', jsonLoads (A3 ++ C ++ B3) ≠ some (PyVal.vDict d') := by
      intro d'
      apply jsonLoads_ne_dict_of_head (A3 ++ C ++ B3) a d'
      · rw [List.append_assoc, List.head?_append_of_ne_nil A3 hA3e]
        exact ha
      · exact hajw
      · exact (hA3bf a hamem).1
    exact parseStages_of_not_dict _ C hnd
      (extractSpan_mid A3 C B3 hA3bf hB3bf hH hL hlen) hspanC


set_option maxRecDepth 100000 in
/-- Concrete instantiation of the brace-extraction theorem: prose around a
JSON object does not change the parse result. -/
theorem C4_brace_extraction_witness :
    parseLlmOutput ("The JSON is: ".toList ++ jW ++ " Enjoy!".toList) = parseLlmOutput jW :=
  C4_brace_extraction "The JSON is: ".toList " Enjoy!".toList jW
    [("a".toList, PyVal.vInt 1)] (by unfold braceFree; decide) (by unfold braceFree; decide)
    (by decide) (by rfl)

/-- A text with no repair site: no comma followed by (Python-regex)
whitespace and then a closing brace or bracket. On such a text
`re.sub(r",\\s*([}\\])])", r"\\1", -)` is the identity. -/
def repairSiteFree : List Char → Bool
  | [] => true
  | c :: rest =>
    if c = ',' then
      (match rest.dropWhile isPyWs with
       | b :: _ => !(b = '}' ∨ b = ']' : Bool)
       | [] => true) && repairSiteFree rest
    else repairSiteFree rest

theorem repairCommas_id_of_siteFree :
    ∀ s : List Char, repairSiteFree s = true → repairCommas s = s := by
  intro s
  induction s with
  | nil => intro _; exact repairCommas_nil
  | cons c rest ih =>
    intro h
    rw [repairCommas_cons]
    unfold repairSiteFree at h
    by_cases hc : c = ','
    · rw [if_pos hc] at h ⊢
      rw [Bool.and_eq_true] at h
      cases hdw : rest.dropWhile isPyWs with
      | nil =>
        rw [ih h.2]
      | cons b r3 =>
        rw [hdw] at h
        have h2 : (!decide (b = '}' ∨ b = ']') : Bool) = true ∧ repairSiteFree rest = true := h
        have hb : ¬(b = '}' ∨ b = ']') := by
          have h1 := h2.1
          simp only [Bool.not_eq_true', decide_eq_false_iff_not] at h1
          exact h1
        show (if b = '}' ∨ b = ']' then b :: repairCommas r3 else c :: repairCommas rest)
          = c :: rest
        rw [if_neg hb, ih h2.2]
    · rw [if_neg hc] at h ⊢
      rw [ih h]


theorem repairCommas_defect (W V : List Char)
    (hW : ∀ c ∈ W, isPyWs c = true) (hVfree : repairSiteFree V = true) :
    ∀ U : List Char, repairSiteFree U = true →
      repairCommas (U ++ ',' :: (W ++ ']' :: V)) = U ++ ']' :: V := by
  intro U
  induction U with
  | nil =>
    intro _
    rw [List.nil_append, repairCommas_cons, if_pos rfl]
    have hWnil : W.dropWhile isPyWs = [] := by
      rw [List.dropWhile_eq_nil_iff]
      intro x hx
      rw [hW x hx]
    rw [dropWhile_append_of_all _ hWnil,
      List.dropWhile_cons_of_neg (by decide)]
    show (if (']' : Char) = '}' ∨ (']' : Char) = ']' then
        ']' :: repairCommas V else ',' :: repairCommas (W ++ ']' :: V)) = ']' :: V
    rw [if_pos (Or.inr rfl), repairCommas_id_of_siteFree V hVfree]
  | cons c U2 ih =>
    intro hU
    rw [List.cons_append, repairCommas_cons]
    unfold repairSiteFree at hU
    by_cases hc : c = ','
    · rw [if_pos hc] at hU ⊢
      rw [Bool.and_eq_true] at hU
      cases hdw : U2.dropWhile isPyWs with
      | nil =>
        rw [dropWhile_append_of_all _ hdw, List.dropWhile_cons_of_neg (by decide)]
        show (if (',' : Char) = '}' ∨ (',' : Char) = ']' then
            ',' :: repairCommas (W ++ ']' :: V)
          else c :: repairCommas (U2 ++ ',' :: (W ++ ']' :: V))) = c :: (U2 ++ ']' :: V)
        rw [if_neg (by decide), ih hU.2]
      | cons b r3 =>
        rw [hdw] at hU
        have h2 : (!decide (b = '}' ∨ b = ']') : Bool) = true ∧ repairSiteFree U2 = true := hU
        have hb : ¬(b = '}' ∨ b = ']') := by
          have h1 := h2.1
          simp only [Bool.not_eq_true', decide_eq_false_iff_not] at h1
          exact h1
        rw [dropWhile_append_of_ne_nil _ (by rw [hdw]; simp), hdw]
        show (if b = '}' ∨ b = ']' then b :: repairCommas (r3 ++ ',' :: (W ++ ']' :: V))
          else c :: repairCommas (U2 ++ ',' :: (W ++ ']' :: V))) = c :: (U2 ++ ']' :: V)
        rw [if_neg hb, ih h2.2]
    · rw [if_neg hc] at hU ⊢
      rw [ih hU, List.cons_append]


theorem cleanText_id_of_plain (X : List Char) (a b : Char)
    (hbt : ∀ c ∈ X, c ≠ btChar)
    (hh : X.head? = some a) (haw : isPyWs a = false)
    (hl : X.getLast? = some b) (hbw : isPyWs b = false) :
    cleanText X = X := by
  unfold cleanText
  rw [fenceSub1_id_of_no_bt X hbt, fenceSub2_id_of_no_bt X hbt]
  unfold pyStrip
  obtain ⟨t, rfl⟩ : ∃ t, X = a :: t := by
    cases X with
    | nil => cases hh
    | cons x t =>
      have : x = a := by simpa using hh
      exact ⟨t, by rw [this]⟩
  rw [List.dropWhile_cons_of_neg (by simp [haw])]
  obtain ⟨X0, hX0⟩ := (List.getLast?_eq_some_iff).mp hl
  have hrev : (a :: t).reverse = b :: X0.reverse := by
    rw [hX0, List.reverse_append]
    simp
  rw [hrev, List.dropWhile_cons_of_neg (by simp [hbw]), ← hrev, List.reverse_reverse]

/-- **C5** `parse_llm_output` succeeds via the trailing-comma repair stage:
on a text that is a JSON object up to exactly one trailing comma before a
closing bracket (comma, optional whitespace, then `]`), whose direct parse
fails and whose comma-removed version parses to an object, the result is
that object. -/
theorem C5_trailing_comma_repair (U W V : List Char) (d : PyDict)
    (hUhead : U.head? = some '{')
    (hVlast : V.getLast? = some '}')
    (hW : ∀ c ∈ W, isPyWs c = true)
    (hUfree : repairSiteFree U = true)
    (hVfree : repairSiteFree V = true)
    (hbt : ∀ c ∈ U ++ ',' :: (W ++ ']' :: V), c ≠ btChar)
    (hfail : jsonLoads (U ++ ',' :: (W ++ ']' :: V)) = none)
    (hGood : jsonLoads (U ++ ']' :: V) = some (PyVal.vDict d)) :
    parseLlmOutput (U ++ ',' :: (W ++ ']' :: V)) = some d := by
  set X := U ++ ',' :: (W ++ ']' :: V) with hX
  have hUne : U ≠ [] := by
    intro h
    rw [h] at hUhead
    cases hUhead
  have hVne : V ≠ [] := by
    intro h
    rw [h] at hVlast
    cases hVlast
  have hXhead : X.head? = some '{' := by
    rw [hX, List.head?_append_of_ne_nil U hUne]
    exact hUhead
  have hXlast : X.getLast? = some '}' := by
    rw [hX, List.getLast?_append_of_ne_nil U (List.cons_ne_nil _ _),
      getLast?_cons_of_ne_nil _ (by simp),
      List.getLast?_append_of_ne_nil W (List.cons_ne_nil _ _),
      getLast?_cons_of_ne_nil _ hVne]
    exact hVlast
  have hclean : cleanText X = X :=
    cleanText_id_of_plain X '{' '}' hbt hXhead (by decide) hXlast (by decide)
  have hXlen : 2 ≤ X.length := by
    rw [hX]
    simp only [List.length_append, List.length_cons]
    omega
  have hbfnil : braceFree ([] : List Char) := fun c hc => absurd hc (List.not_mem_nil c)
  have hspanX : extractSpan X = some X := by
    have h0 := extractSpan_mid [] X [] hbfnil hbfnil hXhead hXlast hXlen
    rwa [List.nil_append, List.append_nil] at h0
  have hrepair : repairCommas X = U ++ ']' :: V :=
    repairCommas_defect W V hW hVfree U hUfree
  rw [parseLlmOutput_eq_stages, hclean]
  unfold parseStages
  rw [hfail, hspanX]
  show (match jsonLoads X with
      | some (PyVal.vDict d) => some d
      | _ =>
        match jsonLoads (repairCommas X) with
        | some (PyVal.vDict d) => some d
        | _ => none) = some d
  rw [hfail, hrepair, hGood]


set_option maxRecDepth 100000 in
/-- Concrete instantiation of the trailing-comma repair theorem. -/
theorem C5_trailing_comma_repair_witness :
    parseLlmOutput "\x7b\"a\": [1,]\x7d".toList
      = some [("a".toList, PyVal.vList [PyVal.vInt 1])] :=
  C5_trailing_comma_repair "\x7b\"a\": [1".toList [] "\x7d".toList
    [("a".toList, PyVal.vList [PyVal.vInt 1])]
    (by rfl) (by rfl) (by decide) (by decide) (by decide) (by decide) (by rfl) (by rfl)

end BookBot
